import Mathlib

/-!
# read_binary.C : decoding of DRSOsc binary waveform files

A shallow embedding of `decode(char *filename)` from
`src/software/drsosc/read_binary.C` and theorems about it.

Modelling conventions.

* The input file is a list of bytes (`Nat` values below 256) together with a
  read position; `fread` and `fseek` act on that pair.
* `double` and `float` values are modelled by exact rationals `ℚ`: every
  statement about times and voltages below is a statement over exact
  arithmetic.  The inner summation `timeSum` is generic in the carrier and uses
  nothing but `+` and `0`; `timeSum_zero`, `timeSum_succ` and
  `timeSum_eq_reconstruct_spec` use no algebraic law, so they hold for an
  addition that rounds as well.
* The local arrays of `decode` are not initialised by the source; their
  initial contents are a parameter (`u : State`) of `decode`.
* The arrays of `decode` are vectors of their declared sizes (`Row` has 1024
  cells, `Table` has 4 rows), so an index is a `Fin`.  `chn_index = hdr[3] -
  '0' - 1` outside `0..3` and a cell index `(1024 - trigger_cell) % 1024` with
  `trigger_cell > 1024` are out-of-bounds accesses in C (undefined behaviour);
  `chnIndex` and `cellIdx` say what the model does there.
* Multi-byte integers are little endian, as on the machines DRSOsc runs on.
-/

namespace ReadBinary

/-! ## The byte stream -/

/-- The `FILE *f` stream: the bytes of the file and the read position. -/
structure FILE where
  data : List Nat
  pos : Nat

/-- The bytes not yet consumed. -/
def FILE.rest (f : FILE) : List Nat := f.data.drop f.pos

/-- The call `fread(ptr, size, count, f)`: the bytes transferred (at most
`size * count`, fewer at end of file), the return value (the number of complete
items transferred) and the advanced stream. -/
def fread (size count : Nat) (f : FILE) : List Nat × Nat × FILE :=
  let got := (f.data.drop f.pos).take (size * count)
  (got, got.length / size, { f with pos := f.pos + got.length })

/-- The call `fseek(f, off, SEEK_CUR)`: a seek before the start of the file fails
and leaves the position where it was. -/
def fseek_cur (off : Int) (f : FILE) : FILE :=
  if 0 ≤ (f.pos : Int) + off then { f with pos := ((f.pos : Int) + off).toNat } else f

/-- The effect of a read on a byte buffer: the transferred bytes replace the
start of the buffer, the remainder keeps its old contents. -/
def store (buf got : List Nat) : List Nat := got ++ buf.drop got.length

/-! ## Values read from bytes -/

/-- The value of an IEEE-754 binary32 number given by its four bytes, least
significant first.  Infinities and NaNs have no rational value and are mapped
to `0`. -/
def f32 (b0 b1 b2 b3 : Nat) : ℚ :=
  let sign : ℚ := if b3 / 128 % 2 = 1 then -1 else 1
  let e := (b3 % 128) * 2 + b2 / 128 % 2
  let m := (b2 % 128) * 65536 + (b1 % 256) * 256 + b0 % 256
  if e = 0 then sign * m / 2 ^ 149
  else if e = 255 then 0
  else sign * (2 ^ 23 + m) * 2 ^ e / 2 ^ 150

/-! ## Arrays -/

/-- An array of 1024 cells, such as `double time[c][1024]`. -/
abbrev Row (α : Type) := Mathlib.Vector α 1024

/-- An array of 4 rows, such as `double time[4][1024]`. -/
abbrev Table (α : Type) := Mathlib.Vector (Row α) 4

/-- The cell index `k % 1024`. -/
def cellIdx (k : Nat) : Fin 1024 := ⟨k % 1024, Nat.mod_lt k (by decide)⟩

/-- The assignment `a[c][i] = v` on a two-dimensional array. -/
def set2 {α : Type} (a : Table α) (c : Fin 4) (i : Fin 1024) (v : α) : Table α :=
  a.set c ((a.get c).set i v)

/-- The effect of `fread(&row[0], sizeof(float), 1024, f)` on a row of floats:
every completely transferred item is stored; a partially transferred item is
indeterminate in C and keeps its old value here. -/
def loadFloats (row : Row ℚ) (got : List Nat) : Row ℚ :=
  Mathlib.Vector.ofFn fun k : Fin 1024 =>
    if k.val < got.length / 4
    then f32 (got.getD (4 * k.val) 0) (got.getD (4 * k.val + 1) 0) (got.getD (4 * k.val + 2) 0)
      (got.getD (4 * k.val + 3) 0)
    else row.get k

/-- An `unsigned short`. -/
abbrev UShort := Fin 65536

/-- The `unsigned short` made of two bytes, the low one first. -/
def ushort (lo hi : Nat) : UShort :=
  ⟨(lo % 256 + 256 * (hi % 256)) % 65536, Nat.mod_lt _ (by decide)⟩

/-- The effect of `fread(voltage, sizeof(short), 1024, f)` on the buffer of
`unsigned short` codes: every completely transferred item is stored; a
partially transferred item is indeterminate in C and keeps its old value here. -/
def loadShorts (buf : Row UShort) (got : List Nat) : Row UShort :=
  Mathlib.Vector.ofFn fun k : Fin 1024 =>
    if k.val < got.length / 2
    then ushort (got.getD (2 * k.val) 0) (got.getD (2 * k.val + 1) 0)
    else buf.get k

/-- The call `memset(bin_width, value, num)` at the granularity of floats: the
first `num / 4` floats of the table (in row-major order) receive the float all
of whose bytes are `value` converted to `unsigned char`. -/
def memset_bin_width (bw : Table ℚ) (value num : Nat) : Table ℚ :=
  Mathlib.Vector.ofFn fun c : Fin 4 =>
    Mathlib.Vector.ofFn fun k : Fin 1024 =>
      if 1024 * c.val + k.val < num / 4
      then f32 (value % 256) (value % 256) (value % 256) (value % 256)
      else (bw.get c).get k

/-- The index `hdr[3] - '0' - 1` of the channel a block tag names, when it is one
of the four rows.  Any other value is an out-of-bounds row in C. -/
def chnIndex (hdr : List Nat) : Option (Fin 4) :=
  let v : Int := (hdr.getD 3 0 : Int) - 48 - 1
  if 0 ≤ v ∧ v < 4 then some ⟨v.toNat % 4, Nat.mod_lt _ (by decide)⟩ else none

/-! ## The state of `decode` -/

/-- One entry of the `rec` tree: a copy of the eight branch buffers.  Row `c` of
`t` is the branch `t1`, `t2`, `t3` or `t4` (bound to `time[c]`), row `c` of `w`
the branch `w1`, `w2`, `w3` or `w4` (bound to `waveform[c]`). -/
structure Entry where
  t : Table ℚ
  w : Table ℚ

/-- The variables of `decode` that the loops read and write, the stream, and
the entries filled into the tree so far. -/
structure State where
  f : FILE
  hdr : List Nat
  eh : List Nat
  voltage : Row UShort
  waveform : Table ℚ
  time : Table ℚ
  bin_width : Table ℚ
  tree : List Entry

/-- The field `eh.trigger_cell`: the `unsigned short` at offset 30 of the event
header. -/
def State.trigger_cell (s : State) : Nat :=
  (ushort (s.eh.getD 30 0) (s.eh.getD 31 0)).val

/-! ## The loops of `decode` -/

/-- Lines 143-144, the inner loop
`for (j=0,time[c][i]=0 ; j<i ; j++) time[c][i] += bin_width[c][(j+tc) % 1024];`
as the value it leaves in `time[c][i]`. -/
def timeSum {α : Type} [Add α] [Zero α] (bw : Row α) (tc i : Nat) : α :=
  (List.range i).foldl (fun acc j => acc + bw.get (cellIdx (j + tc))) 0

/-- Line 140, `voltage[i] / 65536. - 0.5`: the conversion of a code to volts. -/
def volts (code : UShort) : ℚ := (code.val : ℚ) / 65536 - 0.5

/-- Lines 139-144, the body of the loop over the cells of one channel. -/
def sampleStep (chn_index : Fin 4) (s : State) (i : Fin 1024) : State :=
  { s with
    waveform := set2 s.waveform chn_index i (volts (s.voltage.get i))
    time := set2 s.time chn_index i (timeSum (s.bin_width.get chn_index) s.trigger_cell i.val) }

/-- Lines 138-145, the loop `for (i=0 ; i<1024 ; i++)` that converts the codes of
one channel to volts and computes the time of every cell. -/
def sampleLoop (s : State) (chn_index : Fin 4) : State :=
  (List.finRange 1024).foldl (sampleStep chn_index) s

/-- Line 154, `time[ch][i] += dt`. -/
def shiftStep (ch : Fin 4) (dt : ℚ) (s : State) (i : Fin 1024) : State :=
  { s with time := set2 s.time ch i ((s.time.get ch).get i + dt) }

/-- Lines 153-154, `for (i=0 ; i<1024 ; i++) time[ch][i] += dt;`. -/
def shiftLoop (s : State) (ch : Fin 4) (dt : ℚ) : State :=
  (List.finRange 1024).foldl (shiftStep ch dt) s

/-- Lines 151-154, the body of the loop over the channels 1..3 of the alignment:
`t2 = time[ch][(1024-eh.trigger_cell) % 1024]; dt = t1 - t2;` and the shift of
row `ch` by `dt`. -/
def alignStep (t1 : ℚ) (s : State) (ch : Fin 4) : State :=
  shiftLoop s ch (t1 - (s.time.get ch).get (cellIdx (1024 - s.trigger_cell)))

/-- Lines 148-155, "align cell #0 of all channels":
`t1 = time[0][(1024-eh.trigger_cell) % 1024]`, then the loop
`for (ch=1 ; ch<4 ; ch++)`. -/
def align (s : State) : State :=
  ([1, 2, 3] : List (Fin 4)).foldl
    (alignStep ((s.time.get 0).get (cellIdx (1024 - s.trigger_cell)))) s

/-- Line 158, `rec->Fill()`: one entry with the current contents of the eight
branch buffers is appended to the tree. -/
def fill (s : State) : State :=
  { s with tree := s.tree ++ [{ t := s.time, w := s.waveform }] }

/-- Lines 104-114, the loop `for (ch=0 ; ch<5 ; ch++)` over the timing
calibration blocks; the first argument is the number of iterations left.  The
return value of `fread` is not looked at: after a failed read `hdr` keeps its
old contents.  A block whose tag names no row of `bin_width` is read and not
stored. -/
def calibLoop : Nat → State → State
  | 0, s => s
  | k + 1, s =>
    let r := fread 4 1 s.f
    let s := { s with f := r.2.2, hdr := store s.hdr r.1 }
    if s.hdr.getD 0 0 ≠ 67 then
      { s with f := fseek_cur (-4) s.f }
    else
      let r := fread 4 1024 s.f
      match chnIndex s.hdr with
      | some i =>
        calibLoop k
          { s with f := r.2.2, bin_width := s.bin_width.set i (loadFloats (s.bin_width.get i) r.1) }
      | none => calibLoop k { s with f := r.2.2 }

/-- Lines 126-146, the loop `for (ch=0 ; ch<5 ; ch++)` over the channel data
blocks of one event; the first argument is the number of iterations left.  A
block whose tag names no row of the arrays is read and not decoded. -/
def channelLoop : Nat → State → State
  | 0, s => s
  | k + 1, s =>
    let r := fread 4 1 s.f
    let s := { s with f := r.2.2, hdr := store s.hdr r.1 }
    if r.2.1 < 1 then s
    else if s.hdr.getD 0 0 ≠ 67 then
      { s with f := fseek_cur (-4) s.f }
    else
      let r := fread 2 1024 s.f
      let s := { s with f := r.2.2, voltage := loadShorts s.voltage r.1 }
      match chnIndex s.hdr with
      | some chn_index => channelLoop k (sampleLoop s chn_index)
      | none => channelLoop k s

/-- Lines 125-158, what one iteration of the loop over the events does once the
event header is read: the channel data blocks, the alignment, the tree. -/
def eventBody (s : State) : State := fill (align (channelLoop 5 s))

/-- Lines 117-168, the loop `for (n=0 ; n<5 ; n++)` over the events; the first
argument is the number of iterations left, the second the current `n`.  The
result is the final `n` and the final state. -/
def eventLoop : Nat → Nat → State → Nat × State
  | 0, n, s => (n, s)
  | k + 1, n, s =>
    let r := fread 32 1 s.f
    let s := { s with f := r.2.2, eh := store s.eh r.1 }
    if r.2.1 < 1 then (n, s)
    else eventLoop k (n + 1) (eventBody s)

/-- What a run of `decode` leaves behind. -/
inductive Outcome where
  /-- The file could not be opened: "Cannot find file", nothing is written. -/
  | cannotFindFile : Outcome
  /-- The run went to its end: the number printed as "events processed" and the
  entries written to the tree. -/
  | processed (n : Nat) (tree : List Entry) : Outcome

/-- The function `decode(char *filename)`.  `file` is `none` when `fopen` fails
and the contents of the file otherwise; `u` supplies the indeterminate initial
contents of the local variables. -/
def decode (u : State) (file : Option (List Nat)) : Outcome :=
  match file with
  | none => Outcome.cannotFindFile
  | some bytes =>
    let s : State := { u with f := { data := bytes, pos := 0 }, tree := [] }
    -- fread(&th, sizeof(th), 1, f)
    let s := { s with f := (fread 8 1 s.f).2.2 }
    -- memset(bin_width, sizeof(bin_width), 0)
    let s := { s with bin_width := memset_bin_width s.bin_width 16384 0 }
    let s := calibLoop 5 s
    let r := eventLoop 5 0 s
    Outcome.processed r.1 r.2.tree

/-! ## Definitions used to state the theorems -/

/-- The Time Reconstructor as the specification words it (section 4.2):
`time[0] = 0`; for `i` in `1..CellCount-1`,
`time[i] = time[i-1] + widths[(i-1+trigger_cell) mod CellCount]`. -/
def reconstruct_spec {α : Type} [Add α] [Zero α] (widths : Row α) (trigger_cell : Nat) : Nat → α
  | 0 => 0
  | i + 1 => reconstruct_spec widths trigger_cell i + widths.get (cellIdx (i + trigger_cell))

/-- The event header with the given trigger cell: the tag `EHDR`, 26 bytes of
serial number, date and board fields (zero here), the trigger cell. -/
def eventHeader (tc : Nat) : List Nat :=
  [69, 72, 68, 82] ++ List.replicate 26 0 ++ [tc % 256, tc / 256 % 256]

/-- A state of `decode` for concrete instances: an empty stream, the event
header `eh` of trigger cell `tc`, every bin width `w`, every raw code `code`,
and `t0` in every cell of the time table. -/
def sampleState (tc : Nat) (w : ℚ) (code : UShort) (t0 : ℚ) : State where
  f := { data := [], pos := 0 }
  hdr := [0, 0, 0, 0]
  eh := eventHeader tc
  voltage := Mathlib.Vector.replicate 1024 code
  waveform := Mathlib.Vector.replicate 4 (Mathlib.Vector.replicate 1024 0)
  time := Mathlib.Vector.replicate 4 (Mathlib.Vector.replicate 1024 t0)
  bin_width := Mathlib.Vector.replicate 4 (Mathlib.Vector.replicate 1024 w)
  tree := []

/-- A channel data block of a capture file: the 4-byte tag and the bytes of the
sample codes. -/
structure ChannelBlock where
  tag : List Nat
  data : List Nat

/-- The bytes of a channel data block. -/
def ChannelBlock.bytes (b : ChannelBlock) : List Nat := b.tag ++ b.data

/-- A complete channel data block: a 4-byte tag starting with `C` and 1024
two-byte sample codes. -/
def ChannelBlock.Complete (b : ChannelBlock) : Prop :=
  b.tag.length = 4 ∧ b.tag.getD 0 0 = 67 ∧ b.data.length = 2048

/-- The bytes of a list of channel data blocks. -/
def blocksBytes (bs : List ChannelBlock) : List Nat := (bs.map ChannelBlock.bytes).flatten

/-- What follows the channel data blocks of an event in a capture file: the end
of the file, or a tag of four bytes that does not start with `C` (the next
event header). -/
def EndsBlocks (r : List Nat) : Prop := r = [] ∨ (4 ≤ r.length ∧ r.getD 0 0 ≠ 67)

/-- The state after the channel loop has read and decoded one complete channel
data block `b`. -/
def afterBlock (s : State) (b : ChannelBlock) : State :=
  match chnIndex b.tag with
  | some c =>
    sampleLoop
      { s with
        f := { s.f with pos := s.f.pos + 4 + 2048 }
        hdr := store s.hdr b.tag
        voltage := loadShorts s.voltage b.data } c
  | none =>
    { s with
      f := { s.f with pos := s.f.pos + 4 + 2048 }
      hdr := store s.hdr b.tag
      voltage := loadShorts s.voltage b.data }

/-- An event block of a capture file: the event header and the channel data
blocks. -/
structure EventBlock where
  header : List Nat
  channels : List ChannelBlock

/-- The bytes of an event block. -/
def EventBlock.bytes (e : EventBlock) : List Nat := e.header ++ blocksBytes e.channels

/-- A complete event block: a header of 32 bytes whose tag does not start with
`C` (it is `EHDR` in a capture file) and at most four channel data blocks, all
complete. -/
def EventBlock.Complete (e : EventBlock) : Prop :=
  e.header.length = 32 ∧ e.header.getD 0 0 ≠ 67 ∧ e.channels.length ≤ 4 ∧
    ∀ b ∈ e.channels, b.Complete

/-- The bytes of a list of event blocks. -/
def eventsBytes (es : List EventBlock) : List Nat := (es.map EventBlock.bytes).flatten

/-- The channel a block is for appears among the blocks `bs`. -/
def Active (bs : List ChannelBlock) (c : Fin 4) : Prop := ∃ b ∈ bs, chnIndex b.tag = some c

/-- The state `s` with the stream at the start of the bytes `bytes`. -/
def withStream (s : State) (bytes : List Nat) : State :=
  { s with f := { data := bytes, pos := 0 } }

/-- The channel data block of channel number `ch` (1..4, tag `C00<ch>`) whose
1024 codes are all zero. -/
def zeroBlock (ch : Nat) : ChannelBlock :=
  { tag := [67, 48, 48, 48 + ch], data := List.replicate 2048 0 }

/-- The state of `decode` when the loop over the calibration blocks starts: the
time header is read and the `memset` call is done. -/
def decodeStart (u : State) (bytes : List Nat) : State :=
  { u with
    f := (fread 8 1 { data := bytes, pos := 0 }).2.2
    bin_width := memset_bin_width u.bin_width 16384 0
    tree := [] }

/-- A timing calibration block of a capture file: the 4-byte tag and the bytes of
the bin widths. -/
structure CalBlock where
  tag : List Nat
  data : List Nat

/-- The bytes of a calibration block. -/
def CalBlock.bytes (b : CalBlock) : List Nat := b.tag ++ b.data

/-- A complete calibration block: a 4-byte tag starting with `C` and 1024
four-byte bin widths. -/
def CalBlock.Complete (b : CalBlock) : Prop :=
  b.tag.length = 4 ∧ b.tag.getD 0 0 = 67 ∧ b.data.length = 4096

/-- The bytes of a list of calibration blocks. -/
def calsBytes (cs : List CalBlock) : List Nat := (cs.map CalBlock.bytes).flatten

/-- The state after the calibration loop has read one complete calibration
block `b`. -/
def afterCal (s : State) (b : CalBlock) : State :=
  match chnIndex b.tag with
  | some i =>
    { s with
      f := { s.f with pos := s.f.pos + 4 + 4096 }
      hdr := store s.hdr b.tag
      bin_width := s.bin_width.set i (loadFloats (s.bin_width.get i) b.data) }
  | none =>
    { s with
      f := { s.f with pos := s.f.pos + 4 + 4096 }
      hdr := store s.hdr b.tag }

/-- The time header of a capture file: the tag `TIME`, the board tag `B#` and
the board serial number 1. -/
def timeHeader : List Nat := [84, 73, 77, 69, 66, 35, 1, 0]

/-- The count a run printed as "events processed", when the file was found. -/
def Outcome.count : Outcome → Option Nat
  | Outcome.cannotFindFile => none
  | Outcome.processed n _ => some n

/-- The entries a run wrote to the tree. -/
def Outcome.entries : Outcome → List Entry
  | Outcome.cannotFindFile => []
  | Outcome.processed _ tree => tree

/-- An event block with one channel data block, of channel 1, all codes zero. -/
def zeroEvent (tc : Nat) : EventBlock :=
  { header := eventHeader tc, channels := [zeroBlock 1] }

/-- A well-formed capture file with six events: the time header, no calibration
block, six event blocks of one channel each. -/
def sixEventFile : List Nat :=
  timeHeader ++ calsBytes [] ++ eventsBytes (List.replicate 6 (zeroEvent 0))

/-! ## Arrays: reading after writing -/

theorem get_set2 {α : Type} (a : Table α) (c c' : Fin 4) (i j : Fin 1024) (v : α) :
    ((set2 a c i v).get c').get j = if c' = c ∧ j = i then v else (a.get c').get j := by
  unfold set2
  rw [Mathlib.Vector.get_set_eq_if]
  by_cases hc : c = c'
  · subst hc
    rw [if_pos rfl, Mathlib.Vector.get_set_eq_if]
    by_cases hi : i = j
    · subst hi; simp
    · have hji : ¬ j = i := fun h => hi h.symm
      simp [hi, hji]
  · have hc' : ¬ c' = c := fun h => hc h.symm
    simp [hc, hc']

theorem cellIdx_val (k : Nat) : (cellIdx k).val = k % 1024 := rfl

/-- For a trigger cell up to 1024 the anchor index of the model is the value of
the C expression `(1024 - eh.trigger_cell) % 1024`, computed on `int` with the
remainder of truncated division. -/
theorem anchor_eq_c_expr (tc : Nat) (h : tc ≤ 1024) :
    ((cellIdx (1024 - tc)).val : Int) = Int.tmod (1024 - (tc : Int)) 1024 := by
  rw [cellIdx_val, Int.tmod_eq_emod (by omega) (by decide)]
  omega

theorem cellIdx_of_lt {k : Nat} (h : k < 1024) : cellIdx k = ⟨k, h⟩ := by
  apply Fin.ext
  simp [cellIdx, Nat.mod_eq_of_lt h]

theorem cellIdx_fin (i : Fin 1024) : cellIdx i.val = i := by
  apply Fin.ext
  simp [cellIdx, Nat.mod_eq_of_lt i.isLt]

/-! ## The inner summation -/

theorem timeSum_zero {α : Type} [Add α] [Zero α] (bw : Row α) (tc : Nat) :
    timeSum bw tc 0 = 0 := by
  simp [timeSum]

theorem timeSum_succ {α : Type} [Add α] [Zero α] (bw : Row α) (tc i : Nat) :
    timeSum bw tc (i + 1) = timeSum bw tc i + bw.get (cellIdx (i + tc)) := by
  simp [timeSum, List.range_succ, List.foldl_append]

/-! ## The loop over the cells of one channel -/

theorem foldl_sampleStep_frame (c : Fin 4) (l : List (Fin 1024)) (s : State) :
    (l.foldl (sampleStep c) s).f = s.f ∧ (l.foldl (sampleStep c) s).hdr = s.hdr ∧
    (l.foldl (sampleStep c) s).eh = s.eh ∧ (l.foldl (sampleStep c) s).voltage = s.voltage ∧
    (l.foldl (sampleStep c) s).bin_width = s.bin_width ∧
    (l.foldl (sampleStep c) s).tree = s.tree := by
  induction l generalizing s with
  | nil => simp
  | cons a l ih =>
    rw [List.foldl_cons]
    obtain ⟨h1, h2, h3, h4, h5, h6⟩ := ih (sampleStep c s a)
    exact ⟨h1, h2, h3, h4, h5, h6⟩

theorem foldl_sampleStep_time (c : Fin 4) (l : List (Fin 1024)) (s : State) (c' : Fin 4)
    (j : Fin 1024) :
    ((l.foldl (sampleStep c) s).time.get c').get j =
      if c' = c ∧ j ∈ l then timeSum (s.bin_width.get c) s.trigger_cell j.val
      else (s.time.get c').get j := by
  induction l generalizing s with
  | nil => simp
  | cons a l ih =>
    rw [List.foldl_cons, ih (sampleStep c s a)]
    have hbw : (sampleStep c s a).bin_width = s.bin_width := rfl
    have htc : (sampleStep c s a).trigger_cell = s.trigger_cell := rfl
    have ht : ((sampleStep c s a).time.get c').get j =
        if c' = c ∧ j = a then timeSum (s.bin_width.get c) s.trigger_cell a.val
        else (s.time.get c').get j := get_set2 _ _ _ _ _ _
    rw [hbw, htc, ht]
    by_cases hc : c' = c
    · by_cases hl : j ∈ l
      · simp [hc, hl]
      · by_cases ha : j = a
        · simp [hc, ha]
        · simp [hc, hl, ha]
    · simp [hc]

theorem foldl_sampleStep_waveform (c : Fin 4) (l : List (Fin 1024)) (s : State) (c' : Fin 4)
    (j : Fin 1024) :
    ((l.foldl (sampleStep c) s).waveform.get c').get j =
      if c' = c ∧ j ∈ l then volts (s.voltage.get j)
      else (s.waveform.get c').get j := by
  induction l generalizing s with
  | nil => simp
  | cons a l ih =>
    rw [List.foldl_cons, ih (sampleStep c s a)]
    have hv : (sampleStep c s a).voltage = s.voltage := rfl
    have ht : ((sampleStep c s a).waveform.get c').get j =
        if c' = c ∧ j = a then volts (s.voltage.get a)
        else (s.waveform.get c').get j := get_set2 _ _ _ _ _ _
    rw [hv, ht]
    by_cases hc : c' = c
    · by_cases hl : j ∈ l
      · simp [hc, hl]
      · by_cases ha : j = a
        · simp [hc, ha]
        · simp [hc, hl, ha]
    · simp [hc]

theorem sampleLoop_time (s : State) (c c' : Fin 4) (j : Fin 1024) :
    ((sampleLoop s c).time.get c').get j =
      if c' = c then timeSum (s.bin_width.get c) s.trigger_cell j.val
      else (s.time.get c').get j := by
  unfold sampleLoop
  rw [foldl_sampleStep_time]
  simp [List.mem_finRange]

theorem sampleLoop_waveform (s : State) (c c' : Fin 4) (j : Fin 1024) :
    ((sampleLoop s c).waveform.get c').get j =
      if c' = c then volts (s.voltage.get j)
      else (s.waveform.get c').get j := by
  unfold sampleLoop
  rw [foldl_sampleStep_waveform]
  simp [List.mem_finRange]

theorem sampleLoop_frame (s : State) (c : Fin 4) :
    (sampleLoop s c).f = s.f ∧ (sampleLoop s c).hdr = s.hdr ∧
    (sampleLoop s c).eh = s.eh ∧ (sampleLoop s c).voltage = s.voltage ∧
    (sampleLoop s c).bin_width = s.bin_width ∧ (sampleLoop s c).tree = s.tree :=
  foldl_sampleStep_frame c _ s

/-! ## The alignment step -/

theorem foldl_shiftStep_frame (ch : Fin 4) (dt : ℚ) (l : List (Fin 1024)) (s : State) :
    (l.foldl (shiftStep ch dt) s).f = s.f ∧ (l.foldl (shiftStep ch dt) s).hdr = s.hdr ∧
    (l.foldl (shiftStep ch dt) s).eh = s.eh ∧
    (l.foldl (shiftStep ch dt) s).voltage = s.voltage ∧
    (l.foldl (shiftStep ch dt) s).waveform = s.waveform ∧
    (l.foldl (shiftStep ch dt) s).bin_width = s.bin_width ∧
    (l.foldl (shiftStep ch dt) s).tree = s.tree := by
  induction l generalizing s with
  | nil => simp
  | cons a l ih =>
    rw [List.foldl_cons]
    obtain ⟨h1, h2, h3, h4, h5, h6, h7⟩ := ih (shiftStep ch dt s a)
    exact ⟨h1, h2, h3, h4, h5, h6, h7⟩

theorem foldl_shiftStep_time (ch : Fin 4) (dt : ℚ) (l : List (Fin 1024)) (hl : l.Nodup)
    (s : State) (c' : Fin 4) (j : Fin 1024) :
    ((l.foldl (shiftStep ch dt) s).time.get c').get j =
      if c' = ch ∧ j ∈ l then (s.time.get c').get j + dt else (s.time.get c').get j := by
  induction l generalizing s with
  | nil => simp
  | cons a l ih =>
    rw [List.nodup_cons] at hl
    rw [List.foldl_cons, ih hl.2 (shiftStep ch dt s a)]
    have ht : ((shiftStep ch dt s a).time.get c').get j =
        if c' = ch ∧ j = a then (s.time.get ch).get a + dt
        else (s.time.get c').get j := get_set2 _ _ _ _ _ _
    rw [ht]
    by_cases hc : c' = ch
    · subst hc
      by_cases hj : j ∈ l
      · have ha : ¬ j = a := fun h => hl.1 (h ▸ hj)
        simp [hj, ha]
      · by_cases ha : j = a
        · subst ha; simp [hj]
        · simp [hj, ha]
    · simp [hc]

theorem shiftLoop_time (s : State) (ch : Fin 4) (dt : ℚ) (c' : Fin 4) (j : Fin 1024) :
    ((shiftLoop s ch dt).time.get c').get j =
      if c' = ch then (s.time.get c').get j + dt else (s.time.get c').get j := by
  unfold shiftLoop
  rw [foldl_shiftStep_time ch dt _ (List.nodup_finRange 1024)]
  simp [List.mem_finRange]

theorem shiftLoop_frame (s : State) (ch : Fin 4) (dt : ℚ) :
    (shiftLoop s ch dt).f = s.f ∧ (shiftLoop s ch dt).hdr = s.hdr ∧
    (shiftLoop s ch dt).eh = s.eh ∧ (shiftLoop s ch dt).voltage = s.voltage ∧
    (shiftLoop s ch dt).waveform = s.waveform ∧
    (shiftLoop s ch dt).bin_width = s.bin_width ∧ (shiftLoop s ch dt).tree = s.tree :=
  foldl_shiftStep_frame ch dt _ s

theorem shiftLoop_trigger_cell (s : State) (ch : Fin 4) (dt : ℚ) :
    (shiftLoop s ch dt).trigger_cell = s.trigger_cell := by
  unfold State.trigger_cell
  rw [(shiftLoop_frame s ch dt).2.2.1]

theorem alignStep_time (t1 : ℚ) (s : State) (ch c : Fin 4) (j : Fin 1024) :
    ((alignStep t1 s ch).time.get c).get j =
      if c = ch then
        (s.time.get c).get j + (t1 - (s.time.get ch).get (cellIdx (1024 - s.trigger_cell)))
      else (s.time.get c).get j := by
  unfold alignStep
  rw [shiftLoop_time]

theorem alignStep_frame (t1 : ℚ) (s : State) (ch : Fin 4) :
    (alignStep t1 s ch).f = s.f ∧ (alignStep t1 s ch).hdr = s.hdr ∧
    (alignStep t1 s ch).eh = s.eh ∧ (alignStep t1 s ch).voltage = s.voltage ∧
    (alignStep t1 s ch).waveform = s.waveform ∧
    (alignStep t1 s ch).bin_width = s.bin_width ∧ (alignStep t1 s ch).tree = s.tree := by
  unfold alignStep
  exact shiftLoop_frame _ _ _

theorem alignStep_trigger_cell (t1 : ℚ) (s : State) (ch : Fin 4) :
    (alignStep t1 s ch).trigger_cell = s.trigger_cell := by
  unfold alignStep
  exact shiftLoop_trigger_cell _ _ _

theorem align_eq (s : State) :
    align s =
      alignStep ((s.time.get 0).get (cellIdx (1024 - s.trigger_cell)))
        (alignStep ((s.time.get 0).get (cellIdx (1024 - s.trigger_cell)))
          (alignStep ((s.time.get 0).get (cellIdx (1024 - s.trigger_cell))) s 1) 2) 3 := by
  rw [align, List.foldl_cons, List.foldl_cons, List.foldl_cons, List.foldl_nil]

/-- The time table after the alignment step: row 0 is as before, every cell of
row `c` in `1..3` is moved by `time[0][a] - time[c][a]`, `a` the anchor index. -/
theorem align_time (s : State) (c : Fin 4) (j : Fin 1024) :
    ((align s).time.get c).get j =
      if c = 0 then (s.time.get 0).get j
      else (s.time.get c).get j +
        ((s.time.get 0).get (cellIdx (1024 - s.trigger_cell)) -
          (s.time.get c).get (cellIdx (1024 - s.trigger_cell))) := by
  rw [align_eq]
  simp only [alignStep_time, alignStep_trigger_cell]
  fin_cases c <;> simp

theorem align_frame (s : State) :
    (align s).f = s.f ∧ (align s).hdr = s.hdr ∧ (align s).eh = s.eh ∧
    (align s).voltage = s.voltage ∧ (align s).waveform = s.waveform ∧
    (align s).bin_width = s.bin_width ∧ (align s).tree = s.tree := by
  rw [align_eq]
  obtain ⟨a1, a2, a3, a4, a5, a6, a7⟩ :=
    alignStep_frame ((s.time.get 0).get (cellIdx (1024 - s.trigger_cell))) s 1
  obtain ⟨b1, b2, b3, b4, b5, b6, b7⟩ :=
    alignStep_frame ((s.time.get 0).get (cellIdx (1024 - s.trigger_cell)))
      (alignStep ((s.time.get 0).get (cellIdx (1024 - s.trigger_cell))) s 1) 2
  obtain ⟨c1, c2, c3, c4, c5, c6, c7⟩ :=
    alignStep_frame ((s.time.get 0).get (cellIdx (1024 - s.trigger_cell)))
      (alignStep ((s.time.get 0).get (cellIdx (1024 - s.trigger_cell)))
        (alignStep ((s.time.get 0).get (cellIdx (1024 - s.trigger_cell))) s 1) 2) 3
  exact ⟨c1.trans (b1.trans a1), c2.trans (b2.trans a2), c3.trans (b3.trans a3),
    c4.trans (b4.trans a4), c5.trans (b5.trans a5), c6.trans (b6.trans a6),
    c7.trans (b7.trans a7)⟩

/-! ## Reading the stream -/

theorem fread_eq (size count : Nat) (f : FILE) :
    fread size count f =
      (f.rest.take (size * count), (f.rest.take (size * count)).length / size,
        { f with pos := f.pos + (f.rest.take (size * count)).length }) := rfl

theorem rest_advance (f : FILE) (n : Nat) :
    ({ f with pos := f.pos + n } : FILE).rest = f.rest.drop n := by
  simp [FILE.rest, List.drop_drop, Nat.add_comm]

theorem fseek_back (f : FILE) (n : Nat) :
    fseek_cur (-(n : Int)) { f with pos := f.pos + n } = f := by
  unfold fseek_cur
  have h1 : (0 : Int) ≤ ((f.pos + n : Nat) : Int) + -(n : Int) := by omega
  have h2 : (((f.pos + n : Nat) : Int) + -(n : Int)).toNat = f.pos := by omega
  simp only [h1, if_true, h2]

theorem store_getD_of_lt (buf got : List Nat) (i : Nat) (h : i < got.length) :
    (store buf got).getD i 0 = got.getD i 0 := by
  unfold store
  simp [List.getD_eq_getElem?_getD, List.getElem?_append_left h]

theorem chnIndex_store (buf tag : List Nat) (h : tag.length = 4) :
    chnIndex (store buf tag) = chnIndex tag := by
  have h3 : (store buf tag).getD 3 0 = tag.getD 3 0 := store_getD_of_lt buf tag 3 (by omega)
  simp only [chnIndex, h3]

/-- The channel loop stops at the end of the file. -/
theorem channelLoop_eof (k : Nat) (s : State) (h : s.f.rest.length < 4) :
    channelLoop (k + 1) s =
      { s with f := { s.f with pos := s.f.pos + s.f.rest.length }, hdr := store s.hdr s.f.rest } := by
  rw [channelLoop]
  simp only [fread_eq]
  have ht : s.f.rest.take (4 * 1) = s.f.rest := List.take_of_length_le (by omega)
  rw [ht]
  have h0 : s.f.rest.length / 4 < 1 := by omega
  simp only [h0, if_true]

/-- The channel loop stops at a tag that does not start with `C` and puts the
tag back. -/
theorem channelLoop_tag_stop (k : Nat) (s : State) (tag r : List Nat) (h : s.f.rest = tag ++ r)
    (htag : tag.length = 4) (h0 : tag.getD 0 0 ≠ 67) :
    channelLoop (k + 1) s = { s with hdr := store s.hdr tag } := by
  rw [channelLoop]
  simp only [fread_eq]
  have ht : s.f.rest.take (4 * 1) = tag := by
    rw [h, List.take_left' (by omega)]
  rw [ht, htag]
  have h1 : ¬ (4 / 4 < 1) := by decide
  have h2 : (store s.hdr tag).getD 0 0 ≠ 67 := by
    rw [store_getD_of_lt _ _ _ (by omega)]
    exact h0
  simp only [h1, if_false, h2, ne_eq, not_false_eq_true, if_true]
  have := fseek_back s.f 4
  simp only [Nat.cast_ofNat] at this
  rw [this]

/-- One iteration of the channel loop at a block tag: the tag and up to 2048
bytes of codes are read and the channel is decoded. -/
theorem channelLoop_block (k : Nat) (s : State) (tag r : List Nat) (h : s.f.rest = tag ++ r)
    (htag : tag.length = 4) (h0 : tag.getD 0 0 = 67) :
    channelLoop (k + 1) s =
      channelLoop k
        (match chnIndex tag with
        | some c =>
          sampleLoop
            { s with
              f := { s.f with pos := s.f.pos + 4 + (r.take 2048).length }
              hdr := store s.hdr tag
              voltage := loadShorts s.voltage (r.take 2048) } c
        | none =>
          { s with
            f := { s.f with pos := s.f.pos + 4 + (r.take 2048).length }
            hdr := store s.hdr tag
            voltage := loadShorts s.voltage (r.take 2048) }) := by
  rw [channelLoop]
  simp only [fread_eq]
  have ht : s.f.rest.take (4 * 1) = tag := by
    rw [h, List.take_left' (by omega)]
  rw [ht, htag]
  have h1 : ¬ (4 / 4 < 1) := by decide
  have h2 : ¬ (store s.hdr tag).getD 0 0 ≠ 67 := by
    rw [store_getD_of_lt _ _ _ (by omega)]
    simpa using h0
  simp only [h1, if_false, h2]
  have hr : ({ s.f with pos := s.f.pos + 4 } : FILE).rest = r := by
    rw [rest_advance, h, List.drop_left' htag]
  rw [hr, chnIndex_store _ _ htag]
  cases chnIndex tag <;> rfl

theorem fseek_cur_data (off : Int) (f : FILE) : (fseek_cur off f).data = f.data := by
  unfold fseek_cur
  split_ifs <;> rfl

/-- The channel loop changes neither the event header, nor the bin widths, nor
the tree, nor the contents of the file. -/
theorem channelLoop_frame (k : Nat) (s : State) :
    (channelLoop k s).eh = s.eh ∧ (channelLoop k s).bin_width = s.bin_width ∧
    (channelLoop k s).tree = s.tree ∧ (channelLoop k s).f.data = s.f.data := by
  induction k generalizing s with
  | zero => simp [channelLoop]
  | succ k ih =>
    rw [channelLoop]
    simp only []
    split_ifs
    · exact ⟨rfl, rfl, rfl, rfl⟩
    · exact ⟨rfl, rfl, rfl, fseek_cur_data _ _⟩
    · split
      · rename_i c _
        obtain ⟨h1, h2, h3, h4⟩ := ih (sampleLoop _ c)
        rw [h1, h2, h3, h4]
        obtain ⟨g1, _, g3, _, g5, g6⟩ := sampleLoop_frame
          { s with f := (fread 2 1024 (fread 4 1 s.f).2.2).2.2,
                   hdr := store s.hdr (fread 4 1 s.f).1,
                   voltage := loadShorts s.voltage (fread 2 1024 (fread 4 1 s.f).2.2).1 } c
        rw [g1, g3, g5, g6]
        exact ⟨rfl, rfl, rfl, rfl⟩
      · obtain ⟨h1, h2, h3, h4⟩ := ih
          { s with f := (fread 2 1024 (fread 4 1 s.f).2.2).2.2,
                   hdr := store s.hdr (fread 4 1 s.f).1,
                   voltage := loadShorts s.voltage (fread 2 1024 (fread 4 1 s.f).2.2).1 }
        rw [h1, h2, h3, h4]
        exact ⟨rfl, rfl, rfl, rfl⟩

theorem afterBlock_f (s : State) (b : ChannelBlock) :
    (afterBlock s b).f = { s.f with pos := s.f.pos + 4 + 2048 } := by
  unfold afterBlock
  split
  · exact (sampleLoop_frame _ _).1
  · rfl

/-- One iteration of the channel loop at a complete block. -/
theorem channelLoop_complete_block (k : Nat) (s : State) (b : ChannelBlock) (r : List Nat)
    (h : s.f.rest = b.bytes ++ r) (hb : b.Complete) :
    channelLoop (k + 1) s = channelLoop k (afterBlock s b) := by
  obtain ⟨htag, h0, hd⟩ := hb
  have h' : s.f.rest = b.tag ++ (b.data ++ r) := by
    rw [h, ChannelBlock.bytes, List.append_assoc]
  rw [channelLoop_block k s b.tag (b.data ++ r) h' htag h0]
  have ht : (b.data ++ r).take 2048 = b.data := by
    rw [List.take_left' hd]
  rw [ht, hd]
  rfl

/-- The channel loop over the complete blocks of an event: the blocks are decoded
one after the other and the loop stops behind them. -/
theorem channelLoop_blocks (bs : List ChannelBlock) (k : Nat) (s : State) (r : List Nat)
    (hk : bs.length < k) (hbs : ∀ b ∈ bs, b.Complete) (h : s.f.rest = blocksBytes bs ++ r)
    (hr : EndsBlocks r) :
    (∃ hdr', channelLoop k s = { bs.foldl afterBlock s with hdr := hdr' }) ∧
    (bs.foldl afterBlock s).f.rest = r := by
  induction bs generalizing k s with
  | nil =>
    obtain ⟨k, rfl⟩ : ∃ k', k = k' + 1 := ⟨k - 1, by simp at hk; omega⟩
    simp only [blocksBytes, List.map_nil, List.flatten_nil, List.nil_append] at h
    simp only [List.foldl_nil]
    refine ⟨?_, h⟩
    rcases hr with hr | ⟨hr4, hr0⟩
    · have hlen : s.f.rest.length < 4 := by rw [h, hr]; decide
      rw [channelLoop_eof k s hlen]
      have h0 : s.f.rest.length = 0 := by rw [h, hr]; rfl
      exact ⟨store s.hdr s.f.rest, by rw [h0]; rfl⟩
    · have hsplit : s.f.rest = r.take 4 ++ r.drop 4 := by rw [h, List.take_append_drop]
      have htl : (r.take 4).length = 4 := by rw [List.length_take]; omega
      have ht0 : (r.take 4).getD 0 0 ≠ 67 := by
        have : (r.take 4).getD 0 0 = r.getD 0 0 := by
          cases r with
          | nil => simp at hr4
          | cons a r => simp
        rw [this]
        exact hr0
      rw [channelLoop_tag_stop k s _ _ hsplit htl ht0]
      exact ⟨_, rfl⟩
  | cons b bs ih =>
    obtain ⟨k, rfl⟩ : ∃ k', k = k' + 1 := ⟨k - 1, by simp at hk; omega⟩
    have hb : b.Complete := hbs b (List.mem_cons_self _ _)
    have h' : s.f.rest = b.bytes ++ (blocksBytes bs ++ r) := by
      rw [h]
      simp [blocksBytes, List.append_assoc]
    rw [channelLoop_complete_block k s b _ h' hb, List.foldl_cons]
    have hrest : (afterBlock s b).f.rest = blocksBytes bs ++ r := by
      rw [afterBlock_f, Nat.add_assoc, rest_advance, h']
      have hl : b.bytes.length = 4 + 2048 := by
        rw [ChannelBlock.bytes, List.length_append, hb.1, hb.2.2]
      rw [List.drop_left' hl]
    exact ih k (afterBlock s b) (by simp at hk; omega)
      (fun b' hb' => hbs b' (List.mem_cons_of_mem _ hb')) hrest

/-! ## The loop over the events -/

theorem fill_tree (s : State) : (fill s).tree = s.tree ++ [{ t := s.time, w := s.waveform }] := rfl

theorem fill_f (s : State) : (fill s).f = s.f := rfl

theorem fill_bin_width (s : State) : (fill s).bin_width = s.bin_width := rfl

theorem eventBody_tree (s : State) :
    (eventBody s).tree =
      s.tree ++ [{ t := (align (channelLoop 5 s)).time, w := (channelLoop 5 s).waveform }] := by
  have h1 : (align (channelLoop 5 s)).tree = s.tree := by
    rw [(align_frame _).2.2.2.2.2.2, (channelLoop_frame 5 s).2.2.1]
  have h2 : (align (channelLoop 5 s)).waveform = (channelLoop 5 s).waveform :=
    (align_frame _).2.2.2.2.1
  unfold eventBody
  rw [fill_tree, h1, h2]

theorem eventBody_f (s : State) : (eventBody s).f = (channelLoop 5 s).f := by
  unfold eventBody
  rw [fill_f, (align_frame _).1]

theorem eventBody_bin_width (s : State) : (eventBody s).bin_width = s.bin_width := by
  unfold eventBody
  rw [fill_bin_width, (align_frame _).2.2.2.2.2.1, (channelLoop_frame 5 s).2.1]

/-- The event loop stops when fewer than 32 bytes are left: no entry is filled. -/
theorem eventLoop_short (k n : Nat) (s : State) (h : s.f.rest.length < 32) :
    eventLoop (k + 1) n s =
      (n, { s with f := { s.f with pos := s.f.pos + s.f.rest.length }, eh := store s.eh s.f.rest }) := by
  rw [eventLoop]
  simp only [fread_eq]
  have ht : s.f.rest.take (32 * 1) = s.f.rest := List.take_of_length_le (by omega)
  rw [ht]
  have h0 : s.f.rest.length / 32 < 1 := by omega
  simp only [h0, if_true]

/-- One iteration of the event loop when a whole event header can be read. -/
theorem eventLoop_step (k n : Nat) (s : State) (hd r : List Nat) (h : s.f.rest = hd ++ r)
    (hhd : hd.length = 32) :
    eventLoop (k + 1) n s =
      eventLoop k (n + 1)
        (eventBody { s with f := { s.f with pos := s.f.pos + 32 }, eh := store s.eh hd }) := by
  rw [eventLoop]
  simp only [fread_eq]
  have ht : s.f.rest.take (32 * 1) = hd := by
    rw [h, List.take_left' (by omega)]
  rw [ht, hhd]
  have h1 : ¬ (32 / 32 < 1) := by decide
  simp only [h1, if_false]

theorem endsBlocks_eventsBytes (es : List EventBlock) (hes : ∀ e ∈ es, e.Complete) :
    EndsBlocks (eventsBytes es) := by
  cases es with
  | nil => exact Or.inl rfl
  | cons e es =>
    obtain ⟨h32, h0, _, _⟩ := hes e (List.mem_cons_self _ _)
    right
    have hb : eventsBytes (e :: es) = e.header ++ (blocksBytes e.channels ++ eventsBytes es) := by
      simp [eventsBytes, EventBlock.bytes, List.append_assoc]
    rw [hb]
    constructor
    · rw [List.length_append, h32]
      omega
    · have : (e.header ++ (blocksBytes e.channels ++ eventsBytes es)).getD 0 0 =
          e.header.getD 0 0 := by
        cases hh : e.header with
        | nil => rw [hh] at h32; simp at h32
        | cons a l => simp
      rw [this]
      exact h0

/-- The body of the event loop on the channel blocks of a complete event: the
stream ends up behind the blocks and one entry is added to the tree. -/
theorem eventBody_blocks (bs : List ChannelBlock) (s : State) (r : List Nat)
    (hk : bs.length ≤ 4) (hbs : ∀ b ∈ bs, b.Complete) (h : s.f.rest = blocksBytes bs ++ r)
    (hr : EndsBlocks r) :
    (eventBody s).f.rest = r ∧
    (eventBody s).tree =
      s.tree ++ [{ t := (align (bs.foldl afterBlock s)).time,
                   w := (bs.foldl afterBlock s).waveform }] := by
  obtain ⟨⟨hdr', hc⟩, hrest⟩ := channelLoop_blocks bs 5 s r (by omega) hbs h hr
  have ht : (align { bs.foldl afterBlock s with hdr := hdr' }).time =
      (align (bs.foldl afterBlock s)).time := by
    apply Mathlib.Vector.ext
    intro c
    apply Mathlib.Vector.ext
    intro j
    rw [align_time, align_time]
    rfl
  rw [eventBody_f, eventBody_tree, hc, ht]
  exact ⟨hrest, rfl⟩

/-- The event loop over complete event blocks: with `k` iterations left it
processes `min k (number of blocks)` of them, one entry each. -/
theorem eventLoop_complete (es : List EventBlock) (hes : ∀ e ∈ es, e.Complete) (k n : Nat)
    (s : State) (h : s.f.rest = eventsBytes es) :
    (eventLoop k n s).1 = n + min k es.length ∧
    (eventLoop k n s).2.tree.length = s.tree.length + min k es.length := by
  induction es generalizing k n s with
  | nil =>
    cases k with
    | zero => simp [eventLoop]
    | succ k =>
      have hlen : s.f.rest.length < 32 := by rw [h]; simp [eventsBytes]
      rw [eventLoop_short k n s hlen]
      simp
  | cons e es ih =>
    cases k with
    | zero => simp [eventLoop]
    | succ k =>
      obtain ⟨h32, h0, h4, hbs⟩ := hes e (List.mem_cons_self _ _)
      have hes' : ∀ e' ∈ es, e'.Complete := fun e' he' => hes e' (List.mem_cons_of_mem _ he')
      have hb : s.f.rest = e.header ++ (blocksBytes e.channels ++ eventsBytes es) := by
        rw [h]
        simp [eventsBytes, EventBlock.bytes, List.append_assoc]
      rw [eventLoop_step k n s _ _ hb h32]
      have hrest : ({ s with f := { s.f with pos := s.f.pos + 32 },
                             eh := store s.eh e.header } : State).f.rest =
          blocksBytes e.channels ++ eventsBytes es := by
        show ({ s.f with pos := s.f.pos + 32 } : FILE).rest = _
        rw [rest_advance, hb, List.drop_left' h32]
      obtain ⟨hf, htree⟩ := eventBody_blocks e.channels _ _ h4 hbs hrest
        (endsBlocks_eventsBytes es hes')
      obtain ⟨i1, i2⟩ := ih hes' k (n + 1) _ hf
      rw [i1, i2, htree]
      simp only [List.length_append, List.length_cons, List.length_nil]
      omega

/-! ## Time reconstruction -/

theorem timeSum_eq_reconstruct_spec {α : Type} [Add α] [Zero α] (bw : Row α) (tc i : Nat) :
    timeSum bw tc i = reconstruct_spec bw tc i := by
  induction i with
  | zero => simp [timeSum_zero, reconstruct_spec]
  | succ i ih => rw [timeSum_succ, ih, reconstruct_spec]

theorem timeSum_eq_sum {α : Type} [AddCommMonoid α] (bw : Row α) (tc n : Nat) :
    timeSum bw tc n = ∑ j in Finset.range n, bw.get (cellIdx (j + tc)) := by
  induction n with
  | zero => simp [timeSum_zero]
  | succ n ih => rw [timeSum_succ, ih, Finset.sum_range_succ]

theorem sampleState_trigger_cell (tc : Nat) (w : ℚ) (code : UShort) (t0 : ℚ) (h : tc < 65536) :
    (sampleState tc w code t0).trigger_cell = tc := by
  simp only [State.trigger_cell, sampleState, eventHeader, ushort]
  simp
  omega

theorem sampleState_bin_width (tc : Nat) (w : ℚ) (code : UShort) (t0 : ℚ) (c : Fin 4)
    (k : Fin 1024) : ((sampleState tc w code t0).bin_width.get c).get k = w := by
  show ((Mathlib.Vector.replicate 4 (Mathlib.Vector.replicate 1024 w)).get c).get k = w
  rw [Mathlib.Vector.get_replicate, Mathlib.Vector.get_replicate]

theorem sampleState_time (tc : Nat) (w : ℚ) (code : UShort) (t0 : ℚ) (c : Fin 4)
    (k : Fin 1024) : ((sampleState tc w code t0).time.get c).get k = t0 := by
  show ((Mathlib.Vector.replicate 4 (Mathlib.Vector.replicate 1024 t0)).get c).get k = t0
  rw [Mathlib.Vector.get_replicate, Mathlib.Vector.get_replicate]

theorem sampleState_voltage (tc : Nat) (w : ℚ) (code : UShort) (t0 : ℚ) (k : Fin 1024) :
    (sampleState tc w code t0).voltage.get k = code := by
  show (Mathlib.Vector.replicate 1024 code).get k = code
  rw [Mathlib.Vector.get_replicate]

/-- C1. Time reconstruction: after the loop over the cells of channel `c`, for
every width table and every trigger cell (those below 1024 among them),
`time[c][0] = 0` and for every `i` in `1..1023`
`time[c][i] = time[c][i-1] + bin_width[c][(i-1+trigger_cell) % 1024]`; the
nested summation of the code computes the cumulative-sum recurrence of the
specification. -/
theorem sampleLoop_time_recurrence (s : State) (c : Fin 4) (i : Nat)
    (h1 : 1 ≤ i) (hi : i < 1024) :
    ((sampleLoop s c).time.get c).get (cellIdx 0) = 0 ∧
    ((sampleLoop s c).time.get c).get (cellIdx i) =
      ((sampleLoop s c).time.get c).get (cellIdx (i - 1)) +
        (s.bin_width.get c).get (cellIdx (i - 1 + s.trigger_cell)) ∧
    ((sampleLoop s c).time.get c).get (cellIdx i) =
      reconstruct_spec (s.bin_width.get c) s.trigger_cell i := by
  have hi' : i - 1 < 1024 := by omega
  simp only [sampleLoop_time, if_true, cellIdx_val, Nat.mod_eq_of_lt hi, Nat.mod_eq_of_lt hi',
    Nat.zero_mod]
  refine ⟨timeSum_zero _ _, ?_, timeSum_eq_reconstruct_spec _ _ _⟩
  obtain ⟨k, rfl⟩ : ∃ k, i = k + 1 := ⟨i - 1, by omega⟩
  rw [timeSum_succ]
  simp

theorem sampleLoop_time_recurrence_witness :
    ((sampleLoop (sampleState 512 1 0 0) 0).time.get 0).get (cellIdx 0) = 0 ∧
    ((sampleLoop (sampleState 512 1 0 0) 0).time.get 0).get (cellIdx 700) =
      ((sampleLoop (sampleState 512 1 0 0) 0).time.get 0).get (cellIdx (700 - 1)) +
        ((sampleState 512 1 0 0).bin_width.get 0).get
          (cellIdx (700 - 1 + (sampleState 512 1 0 0).trigger_cell)) ∧
    ((sampleLoop (sampleState 512 1 0 0) 0).time.get 0).get (cellIdx 700) =
      reconstruct_spec ((sampleState 512 1 0 0).bin_width.get 0)
        (sampleState 512 1 0 0).trigger_cell 700 :=
  sampleLoop_time_recurrence (sampleState 512 1 0 0) 0 700 (by decide) (by decide)

/-- C4. For every trigger cell (those below 1024 among them) and every width
table of channel `c` whose 1024 widths are all positive, the time axis the loop over the cells
reconstructs has exactly 1024 entries, its first entry is 0, and it is
non-decreasing: `time[c][i] ≤ time[c][i+1]` for every `i` in `0..1022`. -/
theorem sampleLoop_time_monotone (s : State) (c : Fin 4) (i : Nat)
    (hpos : ∀ k : Fin 1024, 0 < (s.bin_width.get c).get k) (hi : i + 1 < 1024) :
    ((sampleLoop s c).time.get c).toList.length = 1024 ∧
    ((sampleLoop s c).time.get c).get (cellIdx 0) = 0 ∧
    ((sampleLoop s c).time.get c).get (cellIdx i) ≤
      ((sampleLoop s c).time.get c).get (cellIdx (i + 1)) := by
  have hi' : i < 1024 := by omega
  simp only [sampleLoop_time, if_true, cellIdx_val, Nat.mod_eq_of_lt hi, Nat.mod_eq_of_lt hi',
    Nat.zero_mod, Mathlib.Vector.toList_length]
  refine ⟨trivial, timeSum_zero _ _, ?_⟩
  rw [timeSum_succ]
  exact le_add_of_nonneg_right (le_of_lt (hpos _))

theorem sampleLoop_time_monotone_witness :
    ((sampleLoop (sampleState 512 1 0 0) 2).time.get 2).toList.length = 1024 ∧
    ((sampleLoop (sampleState 512 1 0 0) 2).time.get 2).get (cellIdx 0) = 0 ∧
    ((sampleLoop (sampleState 512 1 0 0) 2).time.get 2).get (cellIdx 1022) ≤
      ((sampleLoop (sampleState 512 1 0 0) 2).time.get 2).get (cellIdx (1022 + 1)) :=
  sampleLoop_time_monotone (sampleState 512 1 0 0) 2 1022
    (by intro k; rw [sampleState_bin_width]; exact one_pos) (by decide)

/-- C10. The alignment anchor is physical cell #0: for a trigger cell `t` below
1024 the anchor index `a = (1024 - t) % 1024` is below 1024 and
`(a + t) % 1024 = 0`, and the time the loop over the cells reconstructs at the
anchor is the sum of `bin_width[c][k]` over the cells `k = t..1023` when `t > 0`
and is `0` when `t = 0`. -/
theorem anchor_time (s : State) (c : Fin 4) (ht : s.trigger_cell < 1024) :
    (cellIdx (1024 - s.trigger_cell)).val < 1024 ∧
    ((cellIdx (1024 - s.trigger_cell)).val + s.trigger_cell) % 1024 = 0 ∧
    ((sampleLoop s c).time.get c).get (cellIdx (1024 - s.trigger_cell)) =
      if s.trigger_cell = 0 then 0
      else ∑ k in Finset.Ico s.trigger_cell 1024, (s.bin_width.get c).get (cellIdx k) := by
  refine ⟨(cellIdx _).isLt, ?_, ?_⟩
  · rw [cellIdx_val]
    omega
  · rw [sampleLoop_time, if_pos rfl, cellIdx_val]
    by_cases h0 : s.trigger_cell = 0
    · rw [if_pos h0, h0]
      exact timeSum_zero _ _
    · rw [if_neg h0, Nat.mod_eq_of_lt (by omega), timeSum_eq_sum, Finset.sum_Ico_eq_sum_range]
      apply Finset.sum_congr rfl
      intro j _
      rw [Nat.add_comm]

theorem anchor_time_witness :
    (cellIdx (1024 - (sampleState 512 1 0 0).trigger_cell)).val < 1024 ∧
    ((cellIdx (1024 - (sampleState 512 1 0 0).trigger_cell)).val +
      (sampleState 512 1 0 0).trigger_cell) % 1024 = 0 ∧
    ((sampleLoop (sampleState 512 1 0 0) 1).time.get 1).get
        (cellIdx (1024 - (sampleState 512 1 0 0).trigger_cell)) =
      if (sampleState 512 1 0 0).trigger_cell = 0 then 0
      else ∑ k in Finset.Ico (sampleState 512 1 0 0).trigger_cell 1024,
        ((sampleState 512 1 0 0).bin_width.get 1).get (cellIdx k) :=
  anchor_time (sampleState 512 1 0 0) 1
    (by rw [sampleState_trigger_cell 512 1 0 0 (by decide)]; decide)

/-! ## Voltages -/

/-- C3. Voltage transform: the loop over the cells stores, for every 16-bit
unsigned raw code `r = voltage[i]`, the voltage `r/65536 - 1/2`, which lies in
the half-open range `[-1/2, 1/2)`; the code 32768 decodes to exactly 0, the code
0 to exactly -1/2, and the code 65535 to 32767/65536, strictly below 1/2. -/
theorem sampleLoop_voltage (s : State) (c : Fin 4) (i : Fin 1024) :
    ((sampleLoop s c).waveform.get c).get i = volts (s.voltage.get i) ∧
    volts (s.voltage.get i) = ((s.voltage.get i).val : ℚ) / 65536 - 1 / 2 ∧
    (-1 / 2 : ℚ) ≤ ((sampleLoop s c).waveform.get c).get i ∧
    ((sampleLoop s c).waveform.get c).get i < 1 / 2 ∧
    volts 32768 = 0 ∧ volts 0 = -1 / 2 ∧ volts 65535 = 32767 / 65536 ∧
    volts 65535 < 1 / 2 := by
  rw [sampleLoop_waveform, if_pos rfl]
  have hlt : ((s.voltage.get i).val : ℚ) < 65536 := by exact_mod_cast (s.voltage.get i).isLt
  have hge : (0 : ℚ) ≤ ((s.voltage.get i).val : ℚ) := Nat.cast_nonneg _
  have hdiv : ((s.voltage.get i).val : ℚ) / 65536 < 1 := by
    rw [div_lt_one (by norm_num)]
    exact hlt
  have hdiv0 : (0 : ℚ) ≤ ((s.voltage.get i).val : ℚ) / 65536 := div_nonneg hge (by norm_num)
  have h1 : ((32768 : UShort).val : ℚ) = 32768 := by norm_cast
  have h2 : ((0 : UShort).val : ℚ) = 0 := by norm_cast
  have h3 : ((65535 : UShort).val : ℚ) = 65535 := by norm_cast
  unfold volts
  rw [h1, h2, h3]
  refine ⟨rfl, by norm_num, by linarith, by norm_num; linarith, ?_, ?_, ?_, ?_⟩ <;> norm_num

/-! ## Alignment -/

/-- C2. Alignment invariant: after the alignment step, for every trigger cell
below 1024 and every pair of rows of the time table (the active channels among
them), the time at the sample index `(1024 - trigger_cell) % 1024` (the model's
anchor index is the value of that C expression) is the same in both rows, over
exact arithmetic. -/
theorem align_anchor_equal (s : State) (c1 c2 : Fin 4) (ht : s.trigger_cell < 1024) :
    ((cellIdx (1024 - s.trigger_cell)).val : Int) =
      Int.tmod (1024 - (s.trigger_cell : Int)) 1024 ∧
    ((align s).time.get c1).get (cellIdx (1024 - s.trigger_cell)) =
      ((align s).time.get c2).get (cellIdx (1024 - s.trigger_cell)) := by
  have h : ∀ c : Fin 4, ((align s).time.get c).get (cellIdx (1024 - s.trigger_cell)) =
      (s.time.get 0).get (cellIdx (1024 - s.trigger_cell)) := by
    intro c
    rw [align_time]
    by_cases hc : c = 0
    · rw [if_pos hc]
    · rw [if_neg hc]
      ring
  exact ⟨anchor_eq_c_expr _ (le_of_lt ht), by rw [h c1, h c2]⟩

theorem align_anchor_equal_witness :
    ((cellIdx (1024 - (sampleState 512 1 0 0).trigger_cell)).val : Int) =
      Int.tmod (1024 - ((sampleState 512 1 0 0).trigger_cell : Int)) 1024 ∧
    ((align (sampleState 512 1 0 0)).time.get 1).get
        (cellIdx (1024 - (sampleState 512 1 0 0).trigger_cell)) =
      ((align (sampleState 512 1 0 0)).time.get 3).get
        (cellIdx (1024 - (sampleState 512 1 0 0).trigger_cell)) :=
  align_anchor_equal (sampleState 512 1 0 0) 1 3
    (by rw [sampleState_trigger_cell 512 1 0 0 (by decide)]; decide)

theorem sampleLoop_trigger_cell (s : State) (c : Fin 4) :
    (sampleLoop s c).trigger_cell = s.trigger_cell := by
  unfold State.trigger_cell
  rw [(sampleLoop_frame s c).2.2.1]

/-- C6, as the code has it. The alignment takes row 0 (channel 1) as the
reference whether or not channel 1 is active and moves rows 1..3. When the one
active channel is channel 1, its time axis after the alignment is the
reconstructed one, with `time[0][0] = 0`, whatever the other rows hold. When it
is channel `c` in 2..4, every cell of its axis is the reconstructed one moved by
`time[0][a] - time[c][a]`, `a` the anchor index and `time[0]` what row 0 held
before the event. -/
theorem align_single_channel (s : State) (c : Fin 4) (i : Fin 1024) :
    ((align (sampleLoop s c)).time.get c).get i =
      (if c = 0 then ((sampleLoop s c).time.get c).get i
       else ((sampleLoop s c).time.get c).get i +
        ((s.time.get 0).get (cellIdx (1024 - s.trigger_cell)) -
          ((sampleLoop s c).time.get c).get (cellIdx (1024 - s.trigger_cell)))) ∧
    ((align (sampleLoop s 0)).time.get 0).get (cellIdx 0) = 0 := by
  constructor
  · rw [align_time, sampleLoop_trigger_cell]
    by_cases hc : c = 0
    · subst hc
      simp
    · have h0 : ¬ (0 : Fin 4) = c := fun h => hc h.symm
      rw [if_neg hc, if_neg hc, sampleLoop_time s c 0, if_neg h0]
  · rw [align_time, if_pos rfl, sampleLoop_time, if_pos rfl]
    exact timeSum_zero _ _

/-- C6 fails as stated: with trigger cell 0, channel 2 (row 1) the only channel
decoded and 7 in every cell of the time table before the event, the
reconstructed `time[1][0]` is 0 and the alignment turns it into 7. -/
theorem align_single_channel_counterexample :
    ((sampleLoop (sampleState 0 1 0 7) 1).time.get 1).get (cellIdx 0) = 0 ∧
    ((align (sampleLoop (sampleState 0 1 0 7) 1)).time.get 1).get (cellIdx 0) = 7 ∧
    ((align (sampleLoop (sampleState 0 1 0 7) 1)).time.get 1).get (cellIdx 0) ≠
      ((sampleLoop (sampleState 0 1 0 7) 1).time.get 1).get (cellIdx 0) := by
  have htc : (sampleState 0 1 0 7).trigger_cell = 0 :=
    sampleState_trigger_cell 0 1 0 7 (by decide)
  have h1 : ((sampleLoop (sampleState 0 1 0 7) 1).time.get 1).get (cellIdx 0) = 0 := by
    rw [sampleLoop_time, if_pos rfl]
    exact timeSum_zero _ _
  have h01 : ¬ (0 : Fin 4) = 1 := by decide
  have h10 : ¬ (1 : Fin 4) = 0 := by decide
  have h2 : ((align (sampleLoop (sampleState 0 1 0 7) 1)).time.get 1).get (cellIdx 0) = 7 := by
    rw [align_time, if_neg h10, sampleLoop_trigger_cell, htc]
    have ha : cellIdx (1024 - 0) = cellIdx 0 := by
      apply Fin.ext
      simp [cellIdx]
    rw [ha, h1, sampleLoop_time _ 1 0, if_neg h01, sampleState_time]
    norm_num
  refine ⟨h1, h2, ?_⟩
  rw [h1, h2]
  norm_num

/-! ## Decoding the channel blocks of one event -/

theorem afterBlock_frame (s : State) (b : ChannelBlock) :
    (afterBlock s b).eh = s.eh ∧ (afterBlock s b).bin_width = s.bin_width ∧
    (afterBlock s b).tree = s.tree := by
  unfold afterBlock
  split
  · rename_i c _
    obtain ⟨_, _, g3, _, g5, g6⟩ := sampleLoop_frame
      { s with f := { s.f with pos := s.f.pos + 4 + 2048 }, hdr := store s.hdr b.tag,
               voltage := loadShorts s.voltage b.data } c
    exact ⟨g3, g5, g6⟩
  · exact ⟨rfl, rfl, rfl⟩

theorem afterBlock_trigger_cell (s : State) (b : ChannelBlock) :
    (afterBlock s b).trigger_cell = s.trigger_cell := by
  unfold State.trigger_cell
  rw [(afterBlock_frame s b).1]

theorem afterBlock_time (s : State) (b : ChannelBlock) (c : Fin 4) (j : Fin 1024) :
    ((afterBlock s b).time.get c).get j =
      if chnIndex b.tag = some c then timeSum (s.bin_width.get c) s.trigger_cell j.val
      else (s.time.get c).get j := by
  unfold afterBlock
  split
  · rename_i c' hc'
    rw [sampleLoop_time, hc']
    by_cases h : c = c'
    · subst h
      simp
      rfl
    · have h' : ¬ some c' = some c := fun e => h (Option.some.inj e).symm
      rw [if_neg h, if_neg h']
  · rename_i hnone
    rw [hnone, if_neg (by simp)]

theorem afterBlock_waveform (s : State) (b : ChannelBlock) (c : Fin 4) (j : Fin 1024) :
    ((afterBlock s b).waveform.get c).get j =
      if chnIndex b.tag = some c then volts ((loadShorts s.voltage b.data).get j)
      else (s.waveform.get c).get j := by
  unfold afterBlock
  split
  · rename_i c' hc'
    rw [sampleLoop_waveform, hc']
    by_cases h : c = c'
    · subst h
      simp
    · have h' : ¬ some c' = some c := fun e => h (Option.some.inj e).symm
      rw [if_neg h, if_neg h']
  · rename_i hnone
    rw [hnone, if_neg (by simp)]

theorem foldl_afterBlock_frame (bs : List ChannelBlock) (s : State) :
    (bs.foldl afterBlock s).eh = s.eh ∧ (bs.foldl afterBlock s).bin_width = s.bin_width ∧
    (bs.foldl afterBlock s).tree = s.tree := by
  induction bs generalizing s with
  | nil => exact ⟨rfl, rfl, rfl⟩
  | cons b bs ih =>
    rw [List.foldl_cons]
    obtain ⟨h1, h2, h3⟩ := ih (afterBlock s b)
    obtain ⟨g1, g2, g3⟩ := afterBlock_frame s b
    exact ⟨h1.trans g1, h2.trans g2, h3.trans g3⟩

theorem foldl_afterBlock_trigger_cell (bs : List ChannelBlock) (s : State) :
    (bs.foldl afterBlock s).trigger_cell = s.trigger_cell := by
  unfold State.trigger_cell
  rw [(foldl_afterBlock_frame bs s).1]

/-- After the blocks of an event, the time row of an active channel holds the
sums of the bin widths of that channel. -/
theorem foldl_afterBlock_time_active (bs : List ChannelBlock) (s : State) (c : Fin 4)
    (j : Fin 1024) (h : Active bs c ∨
      (s.time.get c).get j = timeSum (s.bin_width.get c) s.trigger_cell j.val) :
    ((bs.foldl afterBlock s).time.get c).get j =
      timeSum (s.bin_width.get c) s.trigger_cell j.val := by
  induction bs generalizing s with
  | nil =>
    rcases h with ⟨b, hb, _⟩ | h
    · simp at hb
    · exact h
  | cons b bs ih =>
    rw [List.foldl_cons]
    have hbw : (afterBlock s b).bin_width = s.bin_width := (afterBlock_frame s b).2.1
    have htc : (afterBlock s b).trigger_cell = s.trigger_cell := afterBlock_trigger_cell s b
    have key := ih (afterBlock s b)
    rw [hbw, htc] at key
    apply key
    by_cases hb : chnIndex b.tag = some c
    · right
      rw [afterBlock_time, if_pos hb]
    · rcases h with ⟨b', hb', hc'⟩ | h
      · rcases List.mem_cons.mp hb' with e | hmem
        · subst e
          exact absurd hc' hb
        · exact Or.inl ⟨b', hmem, hc'⟩
      · right
        rw [afterBlock_time, if_neg hb]
        exact h

/-- After the blocks of an event, the time row of a channel without a block is
as before. -/
theorem foldl_afterBlock_time_inactive (bs : List ChannelBlock) (s : State) (c : Fin 4)
    (j : Fin 1024) (h : ¬ Active bs c) :
    ((bs.foldl afterBlock s).time.get c).get j = (s.time.get c).get j := by
  induction bs generalizing s with
  | nil => rfl
  | cons b bs ih =>
    rw [List.foldl_cons]
    have hb : ¬ chnIndex b.tag = some c := fun e => h ⟨b, List.mem_cons_self _ _, e⟩
    have hbs : ¬ Active bs c := fun ⟨b', hb', e⟩ => h ⟨b', List.mem_cons_of_mem _ hb', e⟩
    rw [ih (afterBlock s b) hbs, afterBlock_time, if_neg hb]

theorem loadShorts_zero (buf : Row UShort) (data : List Nat) (hlen : data.length = 2048)
    (hz : ∀ x ∈ data, x = 0) (j : Fin 1024) : (loadShorts buf data).get j = 0 := by
  have hget : ∀ k, data.getD k 0 = 0 := by
    intro k
    rw [List.getD_eq_getElem?_getD]
    cases hk : data[k]? with
    | none => rfl
    | some x => exact hz x (List.getElem?_mem hk)
  unfold loadShorts
  rw [Mathlib.Vector.get_ofFn, hlen, if_pos (by have := j.isLt; omega), hget, hget]
  rfl

/-- After the blocks of an event, the waveform row of an active channel all of
whose blocks hold zero codes is constant `-1/2`. -/
theorem foldl_afterBlock_waveform_zero (bs : List ChannelBlock) (s : State) (c : Fin 4)
    (j : Fin 1024) (hbs : ∀ b ∈ bs, b.Complete)
    (hz : ∀ b ∈ bs, chnIndex b.tag = some c → ∀ x ∈ b.data, x = 0)
    (h : Active bs c ∨ (s.waveform.get c).get j = -1 / 2) :
    ((bs.foldl afterBlock s).waveform.get c).get j = -1 / 2 := by
  induction bs generalizing s with
  | nil =>
    rcases h with ⟨b, hb, _⟩ | h
    · simp at hb
    · exact h
  | cons b bs ih =>
    rw [List.foldl_cons]
    apply ih (afterBlock s b) (fun b' hb' => hbs b' (List.mem_cons_of_mem _ hb'))
      (fun b' hb' => hz b' (List.mem_cons_of_mem _ hb'))
    by_cases hb : chnIndex b.tag = some c
    · right
      rw [afterBlock_waveform, if_pos hb,
        loadShorts_zero _ _ (hbs b (List.mem_cons_self _ _)).2.2
          (hz b (List.mem_cons_self _ _) hb)]
      unfold volts
      norm_num
    · rcases h with ⟨b', hb', hc'⟩ | h
      · rcases List.mem_cons.mp hb' with e | hmem
        · subst e
          exact absurd hc' hb
        · exact Or.inl ⟨b', hmem, hc'⟩
      · right
        rw [afterBlock_waveform, if_neg hb]
        exact h

theorem timeSum_const (bw : Row ℚ) (w : ℚ) (tc i : Nat) (h : ∀ k, bw.get k = w) :
    timeSum bw tc i = (i : ℚ) * w := by
  induction i with
  | zero => simp [timeSum_zero]
  | succ i ih =>
    rw [timeSum_succ, ih, h]
    push_cast
    ring

/-! ## Constant bin widths -/

theorem withStream_rest (s : State) (bytes : List Nat) : (withStream s bytes).f.rest = bytes := by
  simp [withStream, FILE.rest]

theorem withStream_trigger_cell (s : State) (bytes : List Nat) :
    (withStream s bytes).trigger_cell = s.trigger_cell := rfl

theorem zeroBlock_complete (ch : Nat) : (zeroBlock ch).Complete :=
  ⟨rfl, rfl, List.length_replicate _ _⟩

theorem zeroBlock_zero (ch : Nat) : ∀ x ∈ (zeroBlock ch).data, x = 0 := by
  intro x hx
  exact List.eq_of_mem_replicate hx

theorem blocksBytes_singleton (b : ChannelBlock) : blocksBytes [b] ++ [] = b.bytes := by
  simp [blocksBytes]

theorem entry_t_mk (a b : Table ℚ) : ({ t := a, w := b } : Entry).t = a := rfl

theorem entry_w_mk (a b : Table ℚ) : ({ t := a, w := b } : Entry).w = b := rfl

/-- The entry an event adds to the tree, cell by cell: the rows of the time
table after the channel blocks, aligned on row 0. -/
theorem eventBody_entry_time (bs : List ChannelBlock) (s : State) (r : List Nat)
    (hk : bs.length ≤ 4) (hbs : ∀ b ∈ bs, b.Complete) (h : s.f.rest = blocksBytes bs ++ r)
    (hr : EndsBlocks r) :
    ∃ e, (eventBody s).tree = s.tree ++ [e] ∧ e.w = (bs.foldl afterBlock s).waveform ∧
      ∀ (c : Fin 4) (j : Fin 1024), (e.t.get c).get j =
        if c = 0 then ((bs.foldl afterBlock s).time.get 0).get j
        else ((bs.foldl afterBlock s).time.get c).get j +
          (((bs.foldl afterBlock s).time.get 0).get (cellIdx (1024 - s.trigger_cell)) -
            ((bs.foldl afterBlock s).time.get c).get (cellIdx (1024 - s.trigger_cell))) := by
  refine ⟨_, (eventBody_blocks bs s r hk hbs h hr).2, entry_w_mk _ _, ?_⟩
  intro c j
  rw [entry_t_mk, align_time, foldl_afterBlock_trigger_cell]

/-- C5, as the code has it. Constant-width decoding: when channel 1 (row 0, the
reference of the alignment) is among the channels of the event, the trigger
cell is below 1024 and every bin width of every channel of the event is `w`,
the entry the event adds to the tree has `time[c][i] = i * w` for every channel
`c` of the event and every `i`, and `waveform[c][i] = -1/2` when the codes of
the channel are all zero. -/
theorem constant_width_event (s : State) (bs : List ChannelBlock) (r : List Nat) (w : ℚ)
    (c : Fin 4) (i : Fin 1024) (hk : bs.length ≤ 4) (hbs : ∀ b ∈ bs, b.Complete)
    (h : s.f.rest = blocksBytes bs ++ r) (hr : EndsBlocks r) (_ht : s.trigger_cell < 1024)
    (hw : ∀ c', Active bs c' → ∀ k, (s.bin_width.get c').get k = w)
    (h0 : Active bs 0) (hc : Active bs c) :
    ∃ e, (eventBody s).tree = s.tree ++ [e] ∧ (e.t.get c).get i = (i.val : ℚ) * w ∧
      ((∀ b ∈ bs, chnIndex b.tag = some c → ∀ x ∈ b.data, x = 0) →
        (e.w.get c).get i = -1 / 2) := by
  obtain ⟨e, he, hew, het⟩ := eventBody_entry_time bs s r hk hbs h hr
  have hrow : ∀ c', Active bs c' → ∀ j : Fin 1024,
      ((bs.foldl afterBlock s).time.get c').get j = (j.val : ℚ) * w := by
    intro c' hc' j
    rw [foldl_afterBlock_time_active bs s c' j (Or.inl hc'), timeSum_const _ w _ _ (hw c' hc')]
  refine ⟨e, he, ?_, ?_⟩
  · rw [het]
    by_cases hc0 : c = 0
    · rw [if_pos hc0, hrow 0 h0]
    · rw [if_neg hc0, hrow c hc, hrow 0 h0, hrow c hc]
      ring
  · intro hz
    rw [hew]
    exact foldl_afterBlock_waveform_zero bs s c i hbs hz (Or.inl hc)

theorem zeroBlock_active (ch : Nat) (c : Fin 4) (h : chnIndex (zeroBlock ch).tag = some c) :
    Active [zeroBlock ch] c :=
  ⟨zeroBlock ch, List.mem_singleton.mpr rfl, h⟩

theorem constant_width_event_witness :
    ∃ e, (eventBody (withStream (sampleState 512 (1 / 5) 0 0) (zeroBlock 1).bytes)).tree =
        (withStream (sampleState 512 (1 / 5) 0 0) (zeroBlock 1).bytes).tree ++ [e] ∧
      (e.t.get 0).get (cellIdx 700) = ((cellIdx 700).val : ℚ) * (1 / 5) ∧
      (e.w.get 0).get (cellIdx 700) = -1 / 2 := by
  obtain ⟨e, h1, h2, h3⟩ :=
    constant_width_event (withStream (sampleState 512 (1 / 5) 0 0) (zeroBlock 1).bytes)
      [zeroBlock 1] [] (1 / 5) 0 (cellIdx 700) (by decide)
      (fun b hb => by rw [List.mem_singleton.mp hb]; exact zeroBlock_complete 1)
      (by rw [withStream_rest, blocksBytes_singleton])
      (Or.inl rfl)
      (by rw [withStream_trigger_cell, sampleState_trigger_cell 512 _ 0 0 (by decide)]; decide)
      (fun c' _ k => sampleState_bin_width 512 (1 / 5) 0 0 c' k)
      (zeroBlock_active 1 0 (by decide)) (zeroBlock_active 1 0 (by decide))
  exact ⟨e, h1, h2, h3 (fun b hb _ => by rw [List.mem_singleton.mp hb]; exact zeroBlock_zero 1)⟩

/-- C5 fails as stated: an event whose only channel is channel 2 (row 1), with
trigger cell 1, every bin width 1 and zeros in the time table before the event:
the entry added to the tree has `time[1][0] = -1023`, not `0 * 1`. -/
theorem constant_width_counterexample :
    ∃ e, (eventBody (withStream (sampleState 1 1 0 0) (zeroBlock 2).bytes)).tree = [e] ∧
      (withStream (sampleState 1 1 0 0) (zeroBlock 2).bytes).trigger_cell = 1 ∧
      (∀ c k, ((withStream (sampleState 1 1 0 0) (zeroBlock 2).bytes).bin_width.get c).get k
        = 1) ∧
      Active [zeroBlock 2] 1 ∧
      (e.t.get 1).get (cellIdx 0) = -1023 ∧
      (e.t.get 1).get (cellIdx 0) ≠ ((cellIdx 0).val : ℚ) * 1 := by
  have htc : (withStream (sampleState 1 1 0 0) (zeroBlock 2).bytes).trigger_cell = 1 := by
    rw [withStream_trigger_cell, sampleState_trigger_cell 1 1 0 0 (by decide)]
  have hact : Active [zeroBlock 2] 1 := zeroBlock_active 2 1 (by decide)
  have hin : ¬ Active [zeroBlock 2] 0 := by
    rintro ⟨b, hb, hc⟩
    rw [List.mem_singleton.mp hb] at hc
    revert hc
    decide
  obtain ⟨e, he, _, het⟩ :=
    eventBody_entry_time [zeroBlock 2] (withStream (sampleState 1 1 0 0) (zeroBlock 2).bytes) []
      (by decide) (fun b hb => by rw [List.mem_singleton.mp hb]; exact zeroBlock_complete 2)
      (by rw [withStream_rest, blocksBytes_singleton]) (Or.inl rfl)
  have hbw : ∀ k, ((withStream (sampleState 1 1 0 0) (zeroBlock 2).bytes).bin_width.get 1).get k
      = 1 := fun k => sampleState_bin_width 1 1 0 0 1 k
  have hval : (e.t.get 1).get (cellIdx 0) = -1023 := by
    rw [het, if_neg (by decide),
      foldl_afterBlock_time_active _ _ 1 _ (Or.inl hact),
      foldl_afterBlock_time_active _ _ 1 _ (Or.inl hact),
      foldl_afterBlock_time_inactive _ _ 0 _ hin, htc,
      timeSum_const _ 1 _ _ hbw, timeSum_const _ 1 _ _ hbw]
    have h0 : ((withStream (sampleState 1 1 0 0) (zeroBlock 2).bytes).time.get 0).get
        (cellIdx (1024 - 1)) = 0 := sampleState_time 1 1 0 0 0 _
    have hidx : (cellIdx (1024 - 1)).val = 1023 := rfl
    have hidx0 : (cellIdx 0).val = 0 := rfl
    rw [h0, hidx, hidx0]
    norm_num
  have hidx0 : (cellIdx 0).val = 0 := rfl
  refine ⟨e, he, htc, fun c k => sampleState_bin_width 1 1 0 0 c k, hact, hval, ?_⟩
  rw [hval, hidx0]
  norm_num

/-! ## Truncated trailing events -/

theorem rest_eof (f : FILE) : ({ f with pos := f.pos + f.rest.length } : FILE).rest = [] := by
  rw [rest_advance]
  exact List.drop_length _

/-- When the stream ends inside the first channel block of an event (in the tag,
or in the codes behind a tag starting with `C`), the channel loop ends at the end
of the file. -/
theorem channelLoop_truncated (s : State) (x : List Nat) (h : s.f.rest = x)
    (hx : x.length < 4 ∨ (x.getD 0 0 = 67 ∧ x.length < 4 + 2048)) :
    (channelLoop 5 s).f.rest = [] := by
  by_cases hlt : x.length < 4
  · rw [channelLoop_eof 4 s (by rw [h]; exact hlt)]
    exact rest_eof s.f
  · have hx' : x.getD 0 0 = 67 ∧ x.length < 4 + 2048 := by
      rcases hx with hx | hx
      · exact absurd hx hlt
      · exact hx
    have hsplit : s.f.rest = x.take 4 ++ x.drop 4 := by rw [h, List.take_append_drop]
    have htl : (x.take 4).length = 4 := by rw [List.length_take]; omega
    have ht0 : (x.take 4).getD 0 0 = 67 := by
      have : (x.take 4).getD 0 0 = x.getD 0 0 := by
        cases x with
        | nil => simp at hlt
        | cons a x => simp
      rw [this]
      exact hx'.1
    have hdl : (x.drop 4).length < 2048 := by rw [List.length_drop]; omega
    have htk : (x.drop 4).take 2048 = x.drop 4 := List.take_of_length_le (by omega)
    rw [channelLoop_block 4 s _ _ hsplit htl ht0, htk]
    have hpos : ∀ s' : State, s'.f = { s.f with pos := s.f.pos + 4 + (x.drop 4).length } →
        (channelLoop 4 s').f.rest = [] := by
      intro s' hs'
      have hr : s'.f.rest = [] := by
        rw [hs', Nat.add_assoc, rest_advance, h]
        apply List.drop_of_length_le
        rw [List.length_drop]
        omega
      rw [channelLoop_eof 3 s' (by rw [hr]; decide), hr]
      show ({ s'.f with pos := s'.f.pos + 0 } : FILE).rest = []
      rw [rest_advance, hr]
      rfl
    apply hpos
    split
    · exact (sampleLoop_frame _ _).1
    · rfl

theorem eventLoop_truncated (k n : Nat) (s : State) (hd x : List Nat)
    (h : s.f.rest = hd ++ x) (hhd : hd.length = 32)
    (hx : x.length < 4 ∨ (x.getD 0 0 = 67 ∧ x.length < 4 + 2048)) :
    (eventLoop (k + 1) n s).1 = n + 1 ∧
    ∃ e, (eventLoop (k + 1) n s).2.tree = s.tree ++ [e] := by
  rw [eventLoop_step k n s hd x h hhd]
  have hrest : ({ s with f := { s.f with pos := s.f.pos + 32 },
                         eh := store s.eh hd } : State).f.rest = x := by
    show ({ s.f with pos := s.f.pos + 32 } : FILE).rest = _
    rw [rest_advance, h, List.drop_left' hhd]
  have hf : (eventBody { s with f := { s.f with pos := s.f.pos + 32 },
                                eh := store s.eh hd }).f.rest = [] := by
    rw [eventBody_f]
    exact channelLoop_truncated _ x hrest hx
  have htree := eventBody_tree { s with f := { s.f with pos := s.f.pos + 32 },
                                        eh := store s.eh hd }
  cases k with
  | zero =>
    rw [eventLoop]
    exact ⟨rfl, _, htree⟩
  | succ k =>
    rw [eventLoop_short k (n + 1) _ (by rw [hf]; decide)]
    exact ⟨rfl, _, htree⟩

/-! ## The calibration loop and the whole of `decode` -/

theorem decode_eq (u : State) (bytes : List Nat) :
    decode u (some bytes) =
      Outcome.processed (eventLoop 5 0 (calibLoop 5 (decodeStart u bytes))).1
        (eventLoop 5 0 (calibLoop 5 (decodeStart u bytes))).2.tree := rfl

theorem decode_count (u : State) (bytes : List Nat) :
    (decode u (some bytes)).count =
      some (eventLoop 5 0 (calibLoop 5 (decodeStart u bytes))).1 := rfl

theorem decode_entries (u : State) (bytes : List Nat) :
    (decode u (some bytes)).entries =
      (eventLoop 5 0 (calibLoop 5 (decodeStart u bytes))).2.tree := rfl

theorem decodeStart_rest (u : State) (th r : List Nat) (hth : th.length = 8) :
    (decodeStart u (th ++ r)).f.rest = r := by
  show (fread 8 1 { data := th ++ r, pos := 0 }).2.2.rest = r
  rw [fread_eq]
  have h0 : ({ data := th ++ r, pos := 0 } : FILE).rest = th ++ r := by simp [FILE.rest]
  have ht : (th ++ r).take (8 * 1) = th := List.take_left' (by omega)
  simp only [h0, ht]
  simp [FILE.rest]

theorem decodeStart_tree (u : State) (bytes : List Nat) : (decodeStart u bytes).tree = [] := rfl

theorem decodeStart_hdr (u : State) (bytes : List Nat) : (decodeStart u bytes).hdr = u.hdr := rfl

theorem decodeStart_eh (u : State) (bytes : List Nat) : (decodeStart u bytes).eh = u.eh := rfl

theorem decodeStart_time (u : State) (bytes : List Nat) :
    (decodeStart u bytes).time = u.time := rfl

/-- The call `memset(bin_width, sizeof(bin_width), 0)` sets no byte: the table
keeps the contents it had. -/
theorem memset_bin_width_zero (bw : Table ℚ) (value : Nat) (c : Fin 4) (k : Fin 1024) :
    ((memset_bin_width bw value 0).get c).get k = (bw.get c).get k := by
  unfold memset_bin_width
  rw [Mathlib.Vector.get_ofFn, Mathlib.Vector.get_ofFn, if_neg (by simp)]

theorem decodeStart_bin_width (u : State) (bytes : List Nat) (c : Fin 4) (k : Fin 1024) :
    ((decodeStart u bytes).bin_width.get c).get k = (u.bin_width.get c).get k :=
  memset_bin_width_zero _ _ c k

/-- The calibration loop stops at a tag that does not start with `C` and puts the
tag back. -/
theorem calibLoop_tag_stop (k : Nat) (s : State) (tag r : List Nat) (h : s.f.rest = tag ++ r)
    (htag : tag.length = 4) (h0 : tag.getD 0 0 ≠ 67) :
    calibLoop (k + 1) s = { s with hdr := store s.hdr tag } := by
  rw [calibLoop]
  simp only [fread_eq]
  have ht : s.f.rest.take (4 * 1) = tag := by
    rw [h, List.take_left' (by omega)]
  rw [ht, htag]
  have h2 : (store s.hdr tag).getD 0 0 ≠ 67 := by
    rw [store_getD_of_lt _ _ _ (by omega)]
    exact h0
  simp only [h2, ne_eq, not_false_eq_true, if_true]
  have := fseek_back s.f 4
  simp only [Nat.cast_ofNat] at this
  rw [this]

/-- The calibration loop at the end of the file, when `hdr` does not start with
`C`: nothing is read and the loop stops after seeking back. -/
theorem calibLoop_eof_stop (k : Nat) (s : State) (h : s.f.rest = [])
    (h0 : s.hdr.getD 0 0 ≠ 67) :
    calibLoop (k + 1) s = { s with f := fseek_cur (-4) s.f } := by
  rw [calibLoop]
  simp only [fread_eq]
  have ht : s.f.rest.take (4 * 1) = [] := by rw [h]; rfl
  rw [ht]
  have hst : store s.hdr [] = s.hdr := by simp [store]
  simp only [hst, List.length_nil, Nat.add_zero, h0, ne_eq, not_false_eq_true, if_true]

theorem fseek_cur_rest_le (f : FILE) (h : f.rest = []) : (fseek_cur (-4) f).rest.length ≤ 4 := by
  have hlen : f.data.length ≤ f.pos := by
    have := congrArg List.length h
    simp only [FILE.rest, List.length_drop, List.length_nil] at this
    omega
  unfold fseek_cur
  split_ifs with hpos
  · simp only [FILE.rest, List.length_drop]
    omega
  · rw [h]
    exact Nat.zero_le _

/-- One iteration of the calibration loop at a complete calibration block. -/
theorem calibLoop_complete_block (k : Nat) (s : State) (b : CalBlock) (r : List Nat)
    (h : s.f.rest = b.bytes ++ r) (hb : b.Complete) :
    calibLoop (k + 1) s = calibLoop k (afterCal s b) := by
  obtain ⟨htag, h0, hd⟩ := hb
  have h' : s.f.rest = b.tag ++ (b.data ++ r) := by
    rw [h, CalBlock.bytes, List.append_assoc]
  rw [calibLoop]
  simp only [fread_eq]
  have ht : s.f.rest.take (4 * 1) = b.tag := by
    rw [h', List.take_left' (by omega)]
  rw [ht, htag]
  have h2 : ¬ (store s.hdr b.tag).getD 0 0 ≠ 67 := by
    rw [store_getD_of_lt _ _ _ (by omega)]
    simpa using h0
  simp only [h2, if_false]
  have hr : ({ s.f with pos := s.f.pos + 4 } : FILE).rest = b.data ++ r := by
    rw [rest_advance, h', List.drop_left' htag]
  have htk : (b.data ++ r).take (4 * 1024) = b.data := List.take_left' (by omega)
  rw [hr, htk, hd, chnIndex_store _ _ htag]
  unfold afterCal
  cases chnIndex b.tag <;> rfl

theorem afterCal_frame (s : State) (b : CalBlock) :
    (afterCal s b).f = { s.f with pos := s.f.pos + 4 + 4096 } ∧ (afterCal s b).tree = s.tree ∧
    (afterCal s b).eh = s.eh ∧ (afterCal s b).time = s.time := by
  unfold afterCal
  split <;> exact ⟨rfl, rfl, rfl, rfl⟩

theorem foldl_afterCal_frame (cs : List CalBlock) (s : State) :
    (cs.foldl afterCal s).tree = s.tree ∧ (cs.foldl afterCal s).eh = s.eh ∧
    (cs.foldl afterCal s).time = s.time := by
  induction cs generalizing s with
  | nil => exact ⟨rfl, rfl, rfl⟩
  | cons b cs ih =>
    rw [List.foldl_cons]
    obtain ⟨h1, h2, h3⟩ := ih (afterCal s b)
    obtain ⟨_, g1, g2, g3⟩ := afterCal_frame s b
    exact ⟨h1.trans g1, h2.trans g2, h3.trans g3⟩

/-- The calibration loop over complete calibration blocks followed by an event
header: the blocks are loaded one after the other and the loop stops at the
header. -/
theorem calibLoop_blocks (cs : List CalBlock) (k : Nat) (s : State) (r : List Nat)
    (hk : cs.length < k) (hcs : ∀ b ∈ cs, b.Complete) (h : s.f.rest = calsBytes cs ++ r)
    (hr : 4 ≤ r.length ∧ r.getD 0 0 ≠ 67) :
    (∃ hdr', calibLoop k s = { cs.foldl afterCal s with hdr := hdr' }) ∧
    (cs.foldl afterCal s).f.rest = r := by
  induction cs generalizing k s with
  | nil =>
    obtain ⟨k, rfl⟩ : ∃ k', k = k' + 1 := ⟨k - 1, by simp at hk; omega⟩
    simp only [calsBytes, List.map_nil, List.flatten_nil, List.nil_append] at h
    simp only [List.foldl_nil]
    refine ⟨?_, h⟩
    obtain ⟨hr4, hr0⟩ := hr
    have hsplit : s.f.rest = r.take 4 ++ r.drop 4 := by rw [h, List.take_append_drop]
    have htl : (r.take 4).length = 4 := by rw [List.length_take]; omega
    have ht0 : (r.take 4).getD 0 0 ≠ 67 := by
      have : (r.take 4).getD 0 0 = r.getD 0 0 := by
        cases r with
        | nil => simp at hr4
        | cons a r => simp
      rw [this]
      exact hr0
    rw [calibLoop_tag_stop k s _ _ hsplit htl ht0]
    exact ⟨_, rfl⟩
  | cons b cs ih =>
    obtain ⟨k, rfl⟩ : ∃ k', k = k' + 1 := ⟨k - 1, by simp at hk; omega⟩
    have hb : b.Complete := hcs b (List.mem_cons_self _ _)
    have h' : s.f.rest = b.bytes ++ (calsBytes cs ++ r) := by
      rw [h]
      simp [calsBytes, List.append_assoc]
    rw [calibLoop_complete_block k s b _ h' hb, List.foldl_cons]
    have hrest : (afterCal s b).f.rest = calsBytes cs ++ r := by
      rw [(afterCal_frame s b).1, Nat.add_assoc, rest_advance, h']
      have hl : b.bytes.length = 4 + 4096 := by
        rw [CalBlock.bytes, List.length_append, hb.1, hb.2.2]
      rw [List.drop_left' hl]
    exact ih k (afterCal s b) (by simp at hk; omega)
      (fun b' hb' => hcs b' (List.mem_cons_of_mem _ hb')) hrest

/-- C9, as the code has it. A trailing event whose 32-byte header is complete and
whose first channel data block is cut short (end of file in the tag, or in the
sample codes behind a tag starting with `C`) is not discarded: once the header
is read, the iteration of the event loop goes on to `rec->Fill()`, so the tree
gets one more entry and the count of events is one higher. -/
theorem truncated_event_is_filled (k n : Nat) (s : State) (hd x : List Nat)
    (h : s.f.rest = hd ++ x) (hhd : hd.length = 32)
    (hx : x.length < 4 ∨ (x.getD 0 0 = 67 ∧ x.length < 4 + 2048)) :
    (eventLoop (k + 1) n s).1 = n + 1 ∧
    ∃ e, (eventLoop (k + 1) n s).2.tree = s.tree ++ [e] :=
  eventLoop_truncated k n s hd x h hhd hx

theorem eventHeader_length (tc : Nat) : (eventHeader tc).length = 32 := rfl

theorem eventHeader_tag (tc : Nat) : (eventHeader tc).getD 0 0 ≠ 67 := by
  simp [eventHeader]

theorem truncated_event_is_filled_witness :
    (eventLoop (4 + 1) 0 (withStream (sampleState 0 1 0 0) (eventHeader 0 ++ [67, 48]))).1
      = 0 + 1 ∧
    ∃ e, (eventLoop (4 + 1) 0
        (withStream (sampleState 0 1 0 0) (eventHeader 0 ++ [67, 48]))).2.tree =
      (withStream (sampleState 0 1 0 0) (eventHeader 0 ++ [67, 48])).tree ++ [e] :=
  truncated_event_is_filled 4 0 (withStream (sampleState 0 1 0 0) (eventHeader 0 ++ [67, 48]))
    (eventHeader 0) [67, 48] (withStream_rest _ _) (eventHeader_length 0) (Or.inl (by decide))

/-- The calibration loop of `decode` on a file that goes on, behind the time
header and complete calibration blocks, with an event header. -/
theorem calibLoop_decodeStart (u : State) (th : List Nat) (cs : List CalBlock) (r : List Nat)
    (hth : th.length = 8) (hcs4 : cs.length ≤ 4) (hcs : ∀ b ∈ cs, b.Complete)
    (hr : 4 ≤ r.length ∧ r.getD 0 0 ≠ 67) :
    (calibLoop 5 (decodeStart u (th ++ calsBytes cs ++ r))).f.rest = r ∧
    (calibLoop 5 (decodeStart u (th ++ calsBytes cs ++ r))).tree = [] ∧
    (calibLoop 5 (decodeStart u (th ++ calsBytes cs ++ r))).eh = u.eh ∧
    (calibLoop 5 (decodeStart u (th ++ calsBytes cs ++ r))).time = u.time ∧
    (calibLoop 5 (decodeStart u (th ++ calsBytes cs ++ r))).bin_width =
      (cs.foldl afterCal (decodeStart u (th ++ calsBytes cs ++ r))).bin_width := by
  have hrest : (decodeStart u (th ++ calsBytes cs ++ r)).f.rest = calsBytes cs ++ r := by
    rw [List.append_assoc]
    exact decodeStart_rest u th _ hth
  obtain ⟨⟨hdr', hc⟩, hf⟩ := calibLoop_blocks cs 5 _ r (by omega) hcs hrest hr
  obtain ⟨g1, g2, g3⟩ := foldl_afterCal_frame cs (decodeStart u (th ++ calsBytes cs ++ r))
  rw [hc]
  exact ⟨hf, g1, g2, g3, rfl⟩

/-- On a capture file made of the time header, at most four complete
calibration blocks and at least one complete event block, `decode` counts and
fills `min 5 k` events, `k` the number of event blocks in the file. -/
theorem decode_complete_file (u : State) (th : List Nat) (cs : List CalBlock)
    (es : List EventBlock) (hth : th.length = 8) (hcs4 : cs.length ≤ 4)
    (hcs : ∀ b ∈ cs, b.Complete) (hes : ∀ e ∈ es, e.Complete) (hne : es ≠ []) :
    (decode u (some (th ++ calsBytes cs ++ eventsBytes es))).count = some (min 5 es.length) ∧
    (decode u (some (th ++ calsBytes cs ++ eventsBytes es))).entries.length =
      min 5 es.length := by
  have hr : 4 ≤ (eventsBytes es).length ∧ (eventsBytes es).getD 0 0 ≠ 67 := by
    rcases endsBlocks_eventsBytes es hes with h | h
    · exfalso
      cases es with
      | nil => exact hne rfl
      | cons e es =>
        have h32 := (hes e (List.mem_cons_self _ _)).1
        have hb : eventsBytes (e :: es) =
            e.header ++ (blocksBytes e.channels ++ eventsBytes es) := by
          simp [eventsBytes, EventBlock.bytes, List.append_assoc]
        have hl : (eventsBytes (e :: es)).length = 0 := by rw [h]; rfl
        rw [hb, List.length_append, h32] at hl
        omega
    · exact h
  obtain ⟨hf, htree, _, _, _⟩ := calibLoop_decodeStart u th cs (eventsBytes es) hth hcs4 hcs hr
  obtain ⟨h1, h2⟩ := eventLoop_complete es hes 5 0 _ hf
  rw [decode_count, decode_entries, h1, h2, htree]
  simp

theorem zeroEvent_complete (tc : Nat) : (zeroEvent tc).Complete :=
  ⟨eventHeader_length tc, eventHeader_tag tc, by show 1 ≤ 4; decide,
    fun b hb => by rw [List.mem_singleton.mp hb]; exact zeroBlock_complete 1⟩

/-- C8 fails on the code: on the well-formed capture file `sixEventFile`, which
holds six complete event blocks, `decode` stops after five iterations of
`for (n=0 ; n<5 ; n++)`: it reports 5 events and fills 5 entries. -/
theorem decode_six_events :
    (decode (sampleState 0 1 0 0) (some sixEventFile)).count = some 5 ∧
    (decode (sampleState 0 1 0 0) (some sixEventFile)).entries.length = 5 := by
  have h := decode_complete_file (sampleState 0 1 0 0) timeHeader [] (List.replicate 6 (zeroEvent 0))
    rfl (by decide) (fun b hb => by simp at hb)
    (fun e he => by rw [List.eq_of_mem_replicate he]; exact zeroEvent_complete 0)
    (by simp)
  simpa [sixEventFile] using h

/-! ## Files that end in one event -/

theorem trigger_cell_store (s : State) (f : FILE) (hd : List Nat) (hhd : hd.length = 32) :
    ({ s with f := f, eh := store s.eh hd } : State).trigger_cell =
      (ushort (hd.getD 30 0) (hd.getD 31 0)).val := by
  show (ushort ((store s.eh hd).getD 30 0) ((store s.eh hd).getD 31 0)).val = _
  rw [store_getD_of_lt _ _ 30 (by omega), store_getD_of_lt _ _ 31 (by omega)]

theorem eventHeader_trigger_cell (tc : Nat) (h : tc < 65536) :
    (ushort ((eventHeader tc).getD 30 0) ((eventHeader tc).getD 31 0)).val = tc := by
  simp only [eventHeader, ushort]
  simp
  omega

/-- The last iteration of the event loop on a file that ends with one complete
event: the count goes up by one and the entry of the event is filled. -/
theorem eventLoop_last_event (k n : Nat) (s : State) (hd : List Nat) (bs : List ChannelBlock)
    (h : s.f.rest = hd ++ blocksBytes bs) (hhd : hd.length = 32) (hk : bs.length ≤ 4)
    (hbs : ∀ b ∈ bs, b.Complete) :
    (eventLoop (k + 1) n s).1 = n + 1 ∧
    ∃ e, (eventLoop (k + 1) n s).2.tree = s.tree ++ [e] ∧
      ∀ (c : Fin 4) (j : Fin 1024), (e.t.get c).get j =
        if c = 0 then
          ((bs.foldl afterBlock
            { s with f := { s.f with pos := s.f.pos + 32 }, eh := store s.eh hd }).time.get 0).get j
        else
          ((bs.foldl afterBlock
            { s with f := { s.f with pos := s.f.pos + 32 }, eh := store s.eh hd }).time.get c).get j +
          (((bs.foldl afterBlock
              { s with f := { s.f with pos := s.f.pos + 32 },
                       eh := store s.eh hd }).time.get 0).get
              (cellIdx (1024 - (ushort (hd.getD 30 0) (hd.getD 31 0)).val)) -
            ((bs.foldl afterBlock
              { s with f := { s.f with pos := s.f.pos + 32 },
                       eh := store s.eh hd }).time.get c).get
              (cellIdx (1024 - (ushort (hd.getD 30 0) (hd.getD 31 0)).val))) := by
  rw [eventLoop_step k n s hd _ h hhd]
  have hrest : ({ s with f := { s.f with pos := s.f.pos + 32 },
                         eh := store s.eh hd } : State).f.rest = blocksBytes bs ++ [] := by
    show ({ s.f with pos := s.f.pos + 32 } : FILE).rest = _
    rw [rest_advance, h, List.drop_left' hhd, List.append_nil]
  obtain ⟨e, he, _, het⟩ := eventBody_entry_time bs _ [] hk hbs hrest (Or.inl rfl)
  have hf := (eventBody_blocks bs _ [] hk hbs hrest (Or.inl rfl)).1
  rw [trigger_cell_store s _ hd hhd] at het
  cases k with
  | zero =>
    rw [eventLoop]
    exact ⟨rfl, e, he, het⟩
  | succ k =>
    rw [eventLoop_short k (n + 1) _ (by rw [hf]; decide)]
    exact ⟨rfl, e, he, het⟩

/-- C7, as the code has it. `decode` has no failure for a missing calibration:
whenever the file opens it runs to its end. A data block for channel `c` is
decoded with whatever row `c` of `bin_width` holds, loaded from a calibration
block or not: the event is filled into the tree, and in its entry
`time[c][i] - time[c][0]` is the sum of the cells
`bin_width[c][(j + trigger_cell) % 1024]`, `j < i`. -/
theorem uncalibrated_channel_is_decoded (s : State) (bs : List ChannelBlock) (r : List Nat)
    (c : Fin 4) (i : Fin 1024) (hk : bs.length ≤ 4) (hbs : ∀ b ∈ bs, b.Complete)
    (h : s.f.rest = blocksBytes bs ++ r) (hr : EndsBlocks r) (hc : Active bs c) :
    (∀ (u : State) (bytes : List Nat),
      ∃ n tree, decode u (some bytes) = Outcome.processed n tree) ∧
    ∃ e, (eventBody s).tree = s.tree ++ [e] ∧
      (e.t.get c).get i - (e.t.get c).get (cellIdx 0) =
        timeSum (s.bin_width.get c) s.trigger_cell i.val := by
  refine ⟨fun u bytes => ⟨_, _, decode_eq u bytes⟩, ?_⟩
  obtain ⟨e, he, _, het⟩ := eventBody_entry_time bs s r hk hbs h hr
  refine ⟨e, he, ?_⟩
  have hrow : ∀ j : Fin 1024, ((bs.foldl afterBlock s).time.get c).get j =
      timeSum (s.bin_width.get c) s.trigger_cell j.val :=
    fun j => foldl_afterBlock_time_active bs s c j (Or.inl hc)
  have hz : timeSum (s.bin_width.get c) s.trigger_cell (cellIdx 0).val = 0 := timeSum_zero _ _
  rw [het c i, het c (cellIdx 0)]
  by_cases hc0 : c = 0
  · subst hc0
    rw [if_pos rfl, if_pos rfl, hrow, hrow, hz, sub_zero]
  · rw [if_neg hc0, if_neg hc0, hrow, hrow, hrow, hz]
    ring

theorem uncalibrated_channel_is_decoded_witness :
    (∀ (u : State) (bytes : List Nat),
      ∃ n tree, decode u (some bytes) = Outcome.processed n tree) ∧
    ∃ e, (eventBody (withStream (sampleState 0 7 0 0) (zeroBlock 1).bytes)).tree =
        (withStream (sampleState 0 7 0 0) (zeroBlock 1).bytes).tree ++ [e] ∧
      (e.t.get 0).get (cellIdx 3) - (e.t.get 0).get (cellIdx 0) =
        timeSum ((withStream (sampleState 0 7 0 0) (zeroBlock 1).bytes).bin_width.get 0)
          (withStream (sampleState 0 7 0 0) (zeroBlock 1).bytes).trigger_cell (cellIdx 3).val :=
  uncalibrated_channel_is_decoded (withStream (sampleState 0 7 0 0) (zeroBlock 1).bytes)
    [zeroBlock 1] [] 0 (cellIdx 3) (by decide)
    (fun b hb => by rw [List.mem_singleton.mp hb]; exact zeroBlock_complete 1)
    (by rw [withStream_rest, blocksBytes_singleton]) (Or.inl rfl)
    (zeroBlock_active 1 0 (by decide))

theorem bin_width_update (s : State) (f : FILE) (eh : List Nat) :
    ({ s with f := f, eh := eh } : State).bin_width = s.bin_width := rfl

theorem tree_update (s : State) (f : FILE) (eh : List Nat) :
    ({ s with f := f, eh := eh } : State).tree = s.tree := rfl

theorem eventsBytes_singleton (e : EventBlock) :
    eventsBytes [e] = e.header ++ blocksBytes e.channels := by
  simp [eventsBytes, EventBlock.bytes]

theorem calsBytes_nil (th r : List Nat) : th ++ r = th ++ calsBytes [] ++ r := by
  simp [calsBytes]

/-- C9 fails as stated: the file made of the time header and one complete event
header, with nothing behind it, is the file made of the time header alone with
a partial trailing event block added; `decode` fills one entry for the former
and none for the latter. -/
theorem truncated_event_counterexample :
    (decode (sampleState 0 1 0 0) (some (timeHeader ++ eventHeader 0))).count = some 1 ∧
    (decode (sampleState 0 1 0 0) (some (timeHeader ++ eventHeader 0))).entries.length = 1 ∧
    (decode (sampleState 0 1 0 0) (some timeHeader)).count = some 0 ∧
    (decode (sampleState 0 1 0 0) (some timeHeader)).entries.length = 0 := by
  have hr : 4 ≤ (eventHeader 0).length ∧ (eventHeader 0).getD 0 0 ≠ 67 :=
    ⟨by rw [eventHeader_length]; decide, eventHeader_tag 0⟩
  obtain ⟨hf, htree, _, _, _⟩ := calibLoop_decodeStart (sampleState 0 1 0 0) timeHeader []
    (eventHeader 0) rfl (by decide) (fun b hb => by simp at hb) hr
  rw [← calsBytes_nil] at hf htree
  obtain ⟨h1, e, h2⟩ := eventLoop_truncated 4 0 _ (eventHeader 0) []
    (by rw [hf, List.append_nil]) (eventHeader_length 0) (Or.inl (by decide))
  have hrest0 : (decodeStart (sampleState 0 1 0 0) timeHeader).f.rest = [] := by
    have := decodeStart_rest (sampleState 0 1 0 0) timeHeader [] rfl
    rwa [List.append_nil] at this
  have hhdr : (decodeStart (sampleState 0 1 0 0) timeHeader).hdr.getD 0 0 ≠ 67 := by
    rw [decodeStart_hdr]
    decide
  have hstop := calibLoop_eof_stop 4 _ hrest0 hhdr
  have hshort := eventLoop_short 4 0
    { decodeStart (sampleState 0 1 0 0) timeHeader with
      f := fseek_cur (-4) (decodeStart (sampleState 0 1 0 0) timeHeader).f }
    (Nat.lt_of_le_of_lt (fseek_cur_rest_le _ hrest0) (by decide))
  have htree0 : (decodeStart (sampleState 0 1 0 0) timeHeader).tree = [] := decodeStart_tree _ _
  refine ⟨?_, ?_, ?_, ?_⟩
  · rw [decode_count, h1]
  · rw [decode_entries, h2, htree]
    rfl
  · rw [decode_count, hstop, hshort]
  · rw [decode_entries, hstop, hshort]
    exact congrArg List.length htree0

/-- C7 fails as stated: the file made of the time header and one event with a
data block for channel 1 holds no calibration block; with 7 in every cell of
`bin_width` when `decode` starts, the run reports no failure, counts one event
and fills an entry whose `t1[1]` is 7, a bin width no calibration block
loaded. -/
theorem missing_calibration_counterexample :
    (decode (sampleState 0 7 0 0) (some (timeHeader ++ eventsBytes [zeroEvent 0]))).count
      = some 1 ∧
    ∃ e, (decode (sampleState 0 7 0 0)
        (some (timeHeader ++ eventsBytes [zeroEvent 0]))).entries = [e] ∧
      (e.t.get 0).get (cellIdx 1) = 7 := by
  have hev : eventsBytes [zeroEvent 0] = eventHeader 0 ++ blocksBytes [zeroBlock 1] :=
    eventsBytes_singleton _
  have hr : 4 ≤ (eventsBytes [zeroEvent 0]).length ∧ (eventsBytes [zeroEvent 0]).getD 0 0 ≠ 67 := by
    rcases endsBlocks_eventsBytes [zeroEvent 0]
      (fun e he => by rw [List.mem_singleton.mp he]; exact zeroEvent_complete 0) with h | h
    · exfalso
      have hl := congrArg List.length h
      rw [hev, List.length_append, eventHeader_length] at hl
      simp at hl
    · exact h
  obtain ⟨hf, htree, _, _, hbw⟩ := calibLoop_decodeStart (sampleState 0 7 0 0) timeHeader []
    (eventsBytes [zeroEvent 0]) rfl (by decide) (fun b hb => by simp at hb) hr
  rw [← calsBytes_nil] at hf htree hbw
  rw [List.foldl_nil] at hbw
  obtain ⟨h1, e, h2, het⟩ := eventLoop_last_event 4 0 _ (eventHeader 0) [zeroBlock 1]
    (by rw [hf, hev]) (eventHeader_length 0) (by decide)
    (fun b hb => by rw [List.mem_singleton.mp hb]; exact zeroBlock_complete 1)
  refine ⟨by rw [decode_count, h1], e, by rw [decode_entries, h2, htree]; rfl, ?_⟩
  have h10 : (cellIdx 1).val = 0 + 1 := rfl
  rw [het, if_pos rfl,
    foldl_afterBlock_time_active _ _ 0 _ (Or.inl (zeroBlock_active 1 0 (by decide))),
    bin_width_update, trigger_cell_store _ _ _ (eventHeader_length 0),
    eventHeader_trigger_cell 0 (by decide), h10, timeSum_succ, timeSum_zero, zero_add, hbw,
    decodeStart_bin_width, sampleState_bin_width]

end ReadBinary
